import Mathlib

/-!
ThreadPool: a fixed-size pool of worker threads.

A verification development for `TThreadPool.cc`, `TThreadPool.hh` and `TThread.hh`.

* Pointers to jobs (`TPool::TJob *`) are `Option TJob`, `none` being `NULL`; the
  opaque `void *` argument is an `Option Nat`.
* A pointer to a pool thread (`TPoolThr *`) is the index of the thread in the
  array `_threads` (thread `i` is created as `new TPoolThr( i, this )`).
* A `TMutex` is a `Bool` (`true`: locked). The mutex `_sync_mutex` of a job lives
  in the job object; the jobs whose mutex is held are collected in a list.
* The methods are first given as functions on the pool (one call, run without
  interference), then the threads of the program are interleaved by `step`:
  every thread has a program counter that names the source line it is at, and a
  block guarded by a `TScopedLock` is one step (`_idle_threads` is accessed under
  `_idle_cond` only, and the slot of a pool thread is written under its
  `_work_cond` only). The reads that `TPoolThr::run` makes outside a lock
  (lines 81, 101, 104-108) are steps of their own. A wait on a condition variable
  is a step that cannot be made before its condition holds.
* The user threads make calls of `TPool::run`, `TPool::sync`, `TPool::sync_all` and
  of the destructor `~TPool`; the job body `_job->run( _data_ptr )` is one step of
  the pool thread, and what it does is recorded only as an event.
* `State.trace` is a history of what happened (newest event first). No step
  reads it; the statements about the order of events are made on it.
-/

namespace ThreadPool

/-! ## Data model -/

/-- Outcome of a call made without interference: it returns, it blocks on a mutex
or a condition variable, or it dereferences a null pointer. -/
inductive Res (α : Type) where
  | ret (a : α)
  | blocks
  | fault
deriving DecidableEq

/-- Constant `NO_PROC` of `TThreadPool.hh` (no specific processor). -/
def NO_PROC : Int := -1

/-- Class `TPool::TJob`: the job number; `addr` is the identity of the object. -/
structure TJob where
  addr : Nat
  _job_no : Int
deriving DecidableEq

/-- Method `TJob::job_no`. -/
def TJob.job_no (self : TJob) : Int := self._job_no

/-- Method `TJob::on_proc`. -/
def TJob.on_proc (self : TJob) (p : Int) : Bool :=
  (p == NO_PROC) || (self._job_no == NO_PROC) || (p == self._job_no)

/-- Method `TJob::lock` (`_sync_mutex.lock()`), on the list of the jobs whose mutex
is held: blocks while the mutex is held. -/
def TJob.lock (self : TJob) (locked : List TJob) : Res (List TJob) :=
  if self ∈ locked then .blocks else .ret (self :: locked)

/-- Method `TJob::unlock` (`_sync_mutex.unlock()`). -/
def TJob.unlock (self : TJob) (locked : List TJob) : List TJob :=
  locked.filter (fun k => k != self)

/-- Where a pool thread is in `TPoolThr::run` (lines 77-117 of `TThreadPool.cc`). -/
inductive WPc where
  /-- the object exists, no thread runs it yet -/
  | unstarted
  /-- the thread was started, `run` is about to take `_del_mutex` (line 79) -/
  | created
  /-- line 81, before `! _end` is read -/
  | loopHead
  /-- line 87, before `_pool->append_idle( this )` -/
  | callAppend
  /-- lines 90-94, in the wait for work under `_work_cond` -/
  | waitWork
  /-- line 101, before `_job != NULL` is read -/
  | checkJob
  /-- line 104, inside `_job->run( _data_ptr )` -/
  | execJob
  /-- line 105, before `_job->unlock()` -/
  | unlockJob
  /-- lines 107-108, before `if ( _del_job ) delete _job` -/
  | delJob
  /-- lines 111-114, before the slot is reset under `_work_cond` -/
  | resetSlot
  /-- `run` has returned and released `_del_mutex` -/
  | finished
  /-- a null pointer was dereferenced -/
  | crashed
deriving DecidableEq

/-- Class `TPoolThr` (with the `_thread_no` of `TThread`): the members, the
program counter of the thread that executes `run`, and whether the object was
deleted by `~TPool`. -/
structure TPoolThr where
  _thread_no : Int
  _job : Option TJob
  _data_ptr : Option Nat
  _del_job : Bool
  _end : Bool
  _del_mutex : Bool
  pc : WPc
  deleted : Bool
deriving DecidableEq

/-- Constructor `TPoolThr::TPoolThr( n, p )` (lines 68-70). -/
def TPoolThr.new (n : Int) : TPoolThr :=
  { _thread_no := n, _job := none, _data_ptr := none, _del_job := false, _end := false,
    _del_mutex := false, pc := .unstarted, deleted := false }

/-- Modelled from the spec: `TThread::create` is defined in `TThread.cc`, which is not
among the sources; `TThread.hh` declares it as "create thread (actually start it)".
The new thread executes `run` concurrently with its creator, which does not wait. -/
def TThread.create (_detached _sscope : Bool) (self : TPoolThr) : TPoolThr :=
  { self with pc := .created }

/-- Method `TThread::on_proc`. -/
def TThread.on_proc (self : TPoolThr) (p : Int) : Bool :=
  (p == -1) || (self._thread_no == -1) || (p == self._thread_no)

/-- Method `TPoolThr::run_job` (lines 122-131). -/
def TPoolThr.run_job (j : Option TJob) (p : Option Nat) (del : Bool) (self : TPoolThr) :
    TPoolThr :=
  { self with _job := j, _data_ptr := p, _del_job := del }

/-- Method `TPoolThr::quit` (lines 146-155). -/
def TPoolThr.quit (self : TPoolThr) : TPoolThr :=
  { self with _end := true, _job := none, _data_ptr := none }

/-- Class `TPool`: `_max_parallel`, the array `_threads` and the list `_idle_threads`. -/
structure TPool where
  _max_parallel : Nat
  _threads : List TPoolThr
  _idle_threads : List Nat
deriving DecidableEq

/-- Constructor `TPool::TPool( max_p )` (lines 170-201): the threads are created
and started; the constructor does not touch `_idle_threads`. -/
def TPool.new (max_p : Nat) : TPool :=
  { _max_parallel := max_p
    _threads := (List.range max_p).map
      (fun i => TThread.create true true (TPoolThr.new (Int.ofNat i)))
    _idle_threads := [] }

/-- Method `TPool::max_parallel`. -/
def TPool.max_parallel (self : TPool) : Nat := self._max_parallel

/-- Method `TPool::append_idle` (lines 333-356): nothing is done when `t` is in the
list already, else `t` is pushed at the back. -/
def TPool.append_idle (t : Nat) (self : TPool) : TPool :=
  if t ∈ self._idle_threads then self
  else { self with _idle_threads := self._idle_threads ++ [t] }

/-- Method `TPool::get_idle` (lines 301-328): waits while the list is empty, else
pops the front. -/
def TPool.get_idle (self : TPool) : Res (Nat × TPool) :=
  match self._idle_threads with
  | [] => .blocks
  | t :: rest => .ret (t, { self with _idle_threads := rest })

/-- Apply a method of `TPoolThr` to `_threads[i]`. -/
def TPool.onThread (i : Nat) (f : TPoolThr → TPoolThr) (self : TPool) : TPool :=
  match self._threads[i]? with
  | none => self
  | some t => { self with _threads := self._threads.set i (f t) }

/-- Method `TPool::run` (lines 227-256, `THR_SEQUENTIAL` is `0`), run without
interference, on the pool and the list of locked jobs. -/
def TPool.run (job : Option TJob) (ptr : Option Nat) (del : Bool) (self : TPool)
    (locked : List TJob) : Res (TPool × List TJob) :=
  match job with
  | none => .ret (self, locked)
  | some j =>
    match self.get_idle with
    | .ret (thr, pool1) =>
      match j.lock locked with
      | .ret locked1 => .ret (pool1.onThread thr (TPoolThr.run_job (some j) ptr del), locked1)
      | .blocks => .blocks
      | .fault => .fault
    | .blocks => .blocks
    | .fault => .fault

/-- Method `TPool::sync` (lines 261-269), run without interference. -/
def TPool.sync (job : Option TJob) (self : TPool) (locked : List TJob) :
    Res (TPool × List TJob) :=
  match job with
  | none => .ret (self, locked)
  | some j =>
    match j.lock locked with
    | .ret locked1 => .ret (self, j.unlock locked1)
    | .blocks => .blocks
    | .fault => .fault

/-- Method `TPool::sync_all` (lines 274-291), run without interference: waits while
fewer than `_max_parallel` threads are idle. -/
def TPool.sync_all (self : TPool) : Res TPool :=
  if self._idle_threads.length < self._max_parallel then .blocks else .ret self

/-- Function `run` of the namespace (lines 380-387), on the global `thread_pool`. -/
def run (job : Option TJob) (ptr : Option Nat) (del : Bool) (thread_pool : Option TPool)
    (locked : List TJob) : Res (Option TPool × List TJob) :=
  match job with
  | none => .ret (thread_pool, locked)
  | some j =>
    match thread_pool with
    | none => .fault
    | some pool =>
      match pool.run (some j) ptr del locked with
      | .ret (pool1, locked1) => .ret (some pool1, locked1)
      | .blocks => .blocks
      | .fault => .fault

/-- Function `sync` of the namespace (lines 392-396): `thread_pool->sync( job )`,
without a test of `thread_pool`. `TPool::sync` (lines 261-269) reads no member of the
pool; with `thread_pool == NULL`, a call that the language leaves undefined, the
compiled code runs the same statements: it returns for a `NULL` job and else calls
`job->lock()` and `job->unlock()`. -/
def sync (job : Option TJob) (thread_pool : Option TPool) (locked : List TJob) :
    Res (Option TPool × List TJob) :=
  match thread_pool with
  | none =>
    match job with
    | none => .ret (none, locked)
    | some j =>
      match j.lock locked with
      | .ret locked1 => .ret (none, j.unlock locked1)
      | .blocks => .blocks
      | .fault => .fault
  | some pool =>
    match pool.sync job locked with
    | .ret (pool1, locked1) => .ret (some pool1, locked1)
    | .blocks => .blocks
    | .fault => .fault

/-- Take idle threads until the list is empty (`fuel` calls of `get_idle` at most):
the threads in the order in which `get_idle` returns them. -/
def TPool.drain : Nat → TPool → List Nat
  | 0, _ => []
  | fuel + 1, pool =>
    match pool.get_idle with
    | .ret (t, pool1) => t :: TPool.drain fuel pool1
    | .blocks => []
    | .fault => []

/-! ## The threads of the program, interleaved -/

/-- A call that a thread of the user makes on the pool. -/
inductive Call where
  | run (job : Option TJob) (ptr : Option Nat) (del : Bool)
  | sync (job : Option TJob)
  | sync_all
  /-- the destructor `~TPool` -/
  | destroy
deriving DecidableEq

/-- Where a thread of the user is inside its current call, with the arguments and
local variables of the call. -/
inductive CPc where
  /-- between two calls -/
  | ready
  /-- in `TPool::run`, after `get_idle` returned `thr` (line 248) -/
  | runGotIdle (job : TJob) (ptr : Option Nat) (del : Bool) (thr : Nat)
  /-- in `TPool::run`, after `job->lock()` (line 251) -/
  | runLocked (job : TJob) (ptr : Option Nat) (del : Bool) (thr : Nat)
  /-- in `TPool::sync`, after `job->lock()` (line 267) -/
  | syncLocked (job : TJob)
  /-- in `~TPool`, in the loop of lines 209-210, at index `i` -/
  | quitting (i : Nat)
  /-- in `~TPool`, in the loop of lines 213-217, at index `i` -/
  | reclaiming (i : Nat)
deriving DecidableEq

/-- A thread of the user: where it is, and the calls it still has to make. -/
structure Client where
  pc : CPc
  todo : List Call
deriving DecidableEq

/-- What is recorded in the history. -/
inductive Event where
  /-- `TPool::run` of client `c` handed `j` to thread `w` (line 254) and returned -/
  | handoff (c w : Nat) (j : TJob) (p : Option Nat) (del : Bool)
  /-- `_job->run( _data_ptr )` returned in thread `w` (line 104) -/
  | jobReturned (w : Nat) (j : TJob) (p : Option Nat)
  /-- thread `w` called `_job->unlock()` (line 105) -/
  | jobUnlocked (w : Nat) (j : TJob)
  /-- thread `w` deleted the job (line 108) -/
  | jobDeleted (w : Nat) (j : TJob)
  /-- `TPool::sync( j )` of client `c` returned -/
  | syncReturned (c : Nat) (j : TJob)
  /-- `TPool::sync_all` of client `c` returned -/
  | syncAllReturned (c : Nat)
deriving DecidableEq

/-- The state of the program: the pool, the jobs whose `_sync_mutex` is held, the
threads of the user, and the history. -/
structure State where
  pool : TPool
  locked : List TJob
  clients : List Client
  trace : List Event
deriving DecidableEq

/-- The state in which the constructor of the pool has returned and no thread of the
pool has made a step; the user threads have the calls `progs` to make. -/
def State.init (max_p : Nat) (progs : List (List Call)) : State :=
  { pool := TPool.new max_p
    locked := []
    clients := progs.map (fun p => { pc := .ready, todo := p })
    trace := [] }

/-- A thread of the program. -/
inductive Tid where
  | worker (i : Nat)
  | client (c : Nat)
deriving DecidableEq

/-- Replace `_threads[i]`. -/
@[simp]
def State.setThread (i : Nat) (t : TPoolThr) (s : State) : State :=
  { s with pool := { s.pool with _threads := s.pool._threads.set i t } }

/-- Replace client `c`. -/
@[simp]
def State.setClient (c : Nat) (cl : Client) (s : State) : State :=
  { s with clients := s.clients.set c cl }

/-- Add an event to the history. -/
@[simp]
def State.log (e : Event) (s : State) : State :=
  { s with trace := e :: s.trace }

/-- One step of pool thread `i` in `TPoolThr::run`; `none` when the thread cannot
move (it waits, it has finished, or it does not exist). -/
def workerStep (i : Nat) (s : State) : Option State :=
  match s.pool._threads[i]? with
  | none => none
  | some t =>
    if t.deleted then none
    else
      match t.pc with
      | .unstarted => none
      | .created =>
        -- line 79: TScopedLock del_lock( _del_mutex )
        if t._del_mutex then none
        else some (s.setThread i { t with _del_mutex := true, pc := .loopHead })
      | .loopHead =>
        -- line 81: while ( ! _end ); leaving the loop ends run and releases _del_mutex
        if t._end then some (s.setThread i { t with _del_mutex := false, pc := .finished })
        else some (s.setThread i { t with pc := .callAppend })
      | .callAppend =>
        -- line 87
        some ({ s with pool := s.pool.append_idle i }.setThread i { t with pc := .waitWork })
      | .waitWork =>
        -- lines 90-94: while (( _job == NULL ) && ! _end ) _work_cond.wait()
        if t._job = none ∧ t._end = false then none
        else some (s.setThread i { t with pc := .checkJob })
      | .checkJob =>
        -- line 101
        if t._job ≠ none then some (s.setThread i { t with pc := .execJob })
        else some (s.setThread i { t with pc := .loopHead })
      | .execJob =>
        -- line 104: the body of the job runs, then returns
        match t._job with
        | none => some (s.setThread i { t with pc := .crashed })
        | some j =>
          some ((s.setThread i { t with pc := .unlockJob }).log (.jobReturned i j t._data_ptr))
      | .unlockJob =>
        -- line 105
        match t._job with
        | none => some (s.setThread i { t with pc := .crashed })
        | some j =>
          some (({ s with locked := j.unlock s.locked }.setThread i
            { t with pc := .delJob }).log (.jobUnlocked i j))
      | .delJob =>
        -- lines 107-108
        match t._del_job, t._job with
        | true, some j => some ((s.setThread i { t with pc := .resetSlot }).log (.jobDeleted i j))
        | _, _ => some (s.setThread i { t with pc := .resetSlot })
      | .resetSlot =>
        -- lines 111-114
        some (s.setThread i { t with _job := none, _data_ptr := none, pc := .loopHead })
      | .finished => none
      | .crashed => none

/-- One step of user thread `c`; `none` when the thread cannot move (it waits, it has
no call left, or it does not exist). -/
def clientStep (c : Nat) (s : State) : Option State :=
  match s.clients[c]? with
  | none => none
  | some cl =>
    match cl.pc with
    | .ready =>
      match cl.todo with
      | [] => none
      | .run none _ _ :: rest =>
        -- line 230: if ( job == NULL ) return
        some (s.setClient c { pc := .ready, todo := rest })
      | .run (some j) p del :: rest =>
        -- line 248
        match s.pool.get_idle with
        | .ret (thr, pool1) =>
          some ({ s with pool := pool1 }.setClient c { pc := .runGotIdle j p del thr, todo := rest })
        | _ => none
      | .sync none :: rest =>
        -- line 264
        some (s.setClient c { pc := .ready, todo := rest })
      | .sync (some j) :: rest =>
        -- line 267
        match j.lock s.locked with
        | .ret locked1 =>
          some ({ s with locked := locked1 }.setClient c { pc := .syncLocked j, todo := rest })
        | _ => none
      | .sync_all :: rest =>
        -- lines 277-290
        match s.pool.sync_all with
        | .ret _ => some ((s.setClient c { pc := .ready, todo := rest }).log (.syncAllReturned c))
        | _ => none
      | .destroy :: rest =>
        -- line 206
        match s.pool.sync_all with
        | .ret _ => some (s.setClient c { pc := .quitting 0, todo := rest })
        | _ => none
    | .runGotIdle j p del thr =>
      -- line 251
      match j.lock s.locked with
      | .ret locked1 =>
        some ({ s with locked := locked1 }.setClient c { cl with pc := .runLocked j p del thr })
      | _ => none
    | .runLocked j p del thr =>
      -- line 254
      some ((({ s with pool := s.pool.onThread thr (TPoolThr.run_job (some j) p del) }).setClient c
        { cl with pc := .ready }).log (.handoff c thr j p del))
    | .syncLocked j =>
      -- line 268
      some (({ s with locked := j.unlock s.locked }.setClient c
        { cl with pc := .ready }).log (.syncReturned c j))
    | .quitting i =>
      -- lines 209-210
      if i < s.pool._max_parallel then
        some ({ s with pool := s.pool.onThread i TPoolThr.quit }.setClient c
          { cl with pc := .quitting (i + 1) })
      else some (s.setClient c { cl with pc := .reclaiming 0 })
    | .reclaiming i =>
      -- lines 213-217: _threads[i]->del_mutex().lock(); delete _threads[i]
      if i < s.pool._max_parallel then
        match s.pool._threads[i]? with
        | none => none
        | some t =>
          if t._del_mutex then none
          else some ((s.setThread i { t with _del_mutex := true, deleted := true }).setClient c
            { cl with pc := .reclaiming (i + 1) })
      else some (s.setClient c { cl with pc := .ready })

/-- One step of a thread. -/
def step (t : Tid) (s : State) : Option State :=
  match t with
  | .worker i => workerStep i s
  | .client c => clientStep c s

/-- Run a schedule: the threads make their steps in the order given; `none` when a
thread of the schedule cannot move at its turn. -/
def exec : List Tid → State → Option State
  | [], s => some s
  | t :: sched, s =>
    match step t s with
    | none => none
    | some s1 => exec sched s1

/-- State `s1` is reached from `s0` by some interleaving of the threads. -/
def Reachable (s0 s1 : State) : Prop := ∃ sched, exec sched s0 = some s1


/-! ## Predicates on states and histories -/

/-- The pool thread that a user thread has taken from the idle list and not yet given
its job (`thr` of `TPool::run` between lines 248 and 254). -/
def CPc.thr : CPc → Option Nat
  | .runGotIdle _ _ _ thr => some thr
  | .runLocked _ _ _ thr => some thr
  | _ => none

/-- The job whose `_sync_mutex` a user thread has locked and not yet passed on or
unlocked. -/
def CPc.lockOf : CPc → Option TJob
  | .runLocked j _ _ _ => some j
  | .syncLocked j => some j
  | _ => none

/-- The job that a pool thread has been given and has not yet run to the end. -/
def TPoolThr.toRun (t : TPoolThr) : Option TJob :=
  match t.pc with
  | .waitWork => t._job
  | .checkJob => t._job
  | .execJob => t._job
  | _ => none

/-- The job that a pool thread has run and not yet unlocked. -/
def TPoolThr.toUnlock (t : TPoolThr) : Option TJob :=
  match t.pc with
  | .unlockJob => t._job
  | _ => none

/-- The job whose `_sync_mutex` a pool thread has still to unlock. -/
def TPoolThr.owes (t : TPoolThr) : Option TJob :=
  match t.pc with
  | .waitWork => t._job
  | .checkJob => t._job
  | .execJob => t._job
  | .unlockJob => t._job
  | _ => none

/-- The thread is on its way to `append_idle`: before the loop, at line 87, or at
line 81 with `_end` not set. -/
def TPoolThr.fresh (t : TPoolThr) : Bool :=
  match t.pc with
  | .unstarted => true
  | .created => true
  | .callAppend => true
  | .loopHead => !t._end
  | _ => false

/-- The thread is inside the block of lines 101-115. -/
def WPc.busy : WPc → Bool
  | .execJob => true
  | .unlockJob => true
  | .delJob => true
  | .resetSlot => true
  | _ => false

/-- The thread has left line 104 and not yet reset its slot. -/
def WPc.afterRun : WPc → Bool
  | .unlockJob => true
  | .delJob => true
  | .resetSlot => true
  | _ => false

/-- Event: job `j` is handed to some thread. -/
def Event.isHandoffOf (j : TJob) : Event → Bool
  | .handoff _ _ j1 _ _ => j1 == j
  | _ => false

/-- Event: `j->run` returns in some thread. -/
def Event.isReturnOf (j : TJob) : Event → Bool
  | .jobReturned _ j1 _ => j1 == j
  | _ => false

/-- Event: job `j` is handed to thread `w`. -/
def Event.isHandoffTo (w : Nat) (j : TJob) : Event → Bool
  | .handoff _ w1 j1 _ _ => w1 == w && j1 == j
  | _ => false

/-- Event: `j->run` returns in thread `w`. -/
def Event.isReturnBy (w : Nat) (j : TJob) : Event → Bool
  | .jobReturned w1 j1 _ => w1 == w && j1 == j
  | _ => false

/-- How often job `j` was handed to a pool thread. -/
def handoffCount (tr : List Event) (j : TJob) : Nat := tr.countP (Event.isHandoffOf j)

/-- How often the body of job `j` was run to its end. -/
def runCount (tr : List Event) (j : TJob) : Nat := tr.countP (Event.isReturnOf j)

/-- In the events `later` (newest first) thread `w` returned from `j->run` and, after
that, unlocked `j`. -/
def RanAndUnlocked (w : Nat) (j : TJob) (later : List Event) : Prop :=
  ∃ a b d p, later = a ++ Event.jobUnlocked w j :: (b ++ Event.jobReturned w j p :: d)

/-- Every thread that was handed `j` has since run it and unlocked it. -/
def Answered (tr : List Event) (j : TJob) : Prop :=
  ∀ post c w p del pre, tr = post ++ Event.handoff c w j p del :: pre → RanAndUnlocked w j post


/-- No event of `l` hands job `j` to a thread. -/
def NoHandoff (j : TJob) (l : List Event) : Prop := ∀ e ∈ l, Event.isHandoffOf j e = false

/-- Thread `w` was handed `j` and has not returned from `j->run` since; every earlier
hand-over of `j` was answered. -/
def Pending (tr : List Event) (j : TJob) (w : Nat) : Prop :=
  ∃ post c p del pre, tr = post ++ Event.handoff c w j p del :: pre ∧ NoHandoff j post ∧
    Answered pre j

/-- Thread `w` was handed `j` and has returned from `j->run` since; every earlier
hand-over of `j` was answered. -/
def Returned (tr : List Event) (j : TJob) (w : Nat) : Prop :=
  ∃ post2 p1 post1 c p del pre,
    tr = post2 ++ Event.jobReturned w j p1 :: (post1 ++ Event.handoff c w j p del :: pre) ∧
    NoHandoff j post2 ∧ NoHandoff j post1 ∧ Answered pre j

/-- Whenever `sync( j )` returned, every hand-over of `j` made before was answered. -/
def SyncSafe (tr : List Event) : Prop :=
  ∀ post c j pre, tr = post ++ Event.syncReturned c j :: pre → Answered pre j

/-- How often job `j` was handed to thread `w`. -/
def handedTo (tr : List Event) (w : Nat) (j : TJob) : Nat := tr.countP (Event.isHandoffTo w j)

/-- How often thread `w` ran the body of job `j` to its end. -/
def returnedBy (tr : List Event) (w : Nat) (j : TJob) : Nat := tr.countP (Event.isReturnBy w j)

/-- Whenever `sync_all` returned, every job had been run as often as it had been
handed to a thread. -/
def SyncAllSafe (tr : List Event) : Prop :=
  ∀ post c pre, tr = post ++ Event.syncAllReturned c :: pre →
    ∀ j, runCount pre j = handoffCount pre j


/-- The pool thread an event is about (`0` for the events of user threads). -/
def Event.worker : Event → Nat
  | .handoff _ w _ _ _ => w
  | .jobReturned w _ _ => w
  | .jobUnlocked w _ => w
  | .jobDeleted w _ => w
  | _ => 0

/-- A number above the pool threads of all events of a history. -/
def workerBound : List Event → Nat
  | [] => 0
  | e :: tr => max (e.worker + 1) (workerBound tr)


/-- Thread `w` ran every job as often as it was handed the job. -/
def Balanced (tr : List Event) (w : Nat) : Prop := ∀ j, handedTo tr w j = returnedBy tr w j

/-- Thread `w` was handed `j` once more than it ran `j`, and ran every other job as
often as it was handed the job. -/
def OneAhead (tr : List Event) (w : Nat) (j : TJob) : Prop :=
  handedTo tr w j = returnedBy tr w j + 1 ∧ ∀ j2, j2 ≠ j → handedTo tr w j2 = returnedBy tr w j2

/-- The event is neither a hand-over to thread `w` nor the return of a job in `w`. -/
def Event.notOf (w : Nat) (e : Event) : Prop :=
  ∀ j, Event.isHandoffTo w j e = false ∧ Event.isReturnBy w j e = false

/-! ## The steps as relations -/

/-- The steps of pool thread `i`, whose object is `t`, one case for each line of
`TPoolThr::run` (a relation that `workerStep` is shown to follow). -/
inductive WStep (i : Nat) (s : State) (t : TPoolThr) : State → Prop where
  | start : t.pc = .created → t._del_mutex = false →
      WStep i s t (s.setThread i { t with _del_mutex := true, pc := .loopHead })
  | leave : t.pc = .loopHead → t._end = true →
      WStep i s t (s.setThread i { t with _del_mutex := false, pc := .finished })
  | enter : t.pc = .loopHead → t._end = false →
      WStep i s t (s.setThread i { t with pc := .callAppend })
  | append : t.pc = .callAppend →
      WStep i s t ({ s with pool := s.pool.append_idle i }.setThread i { t with pc := .waitWork })
  | wake : t.pc = .waitWork → ¬ (t._job = none ∧ t._end = false) →
      WStep i s t (s.setThread i { t with pc := .checkJob })
  | take : t.pc = .checkJob → t._job ≠ none →
      WStep i s t (s.setThread i { t with pc := .execJob })
  | skip : t.pc = .checkJob → t._job = none →
      WStep i s t (s.setThread i { t with pc := .loopHead })
  | crashRun : t.pc = .execJob → t._job = none →
      WStep i s t (s.setThread i { t with pc := .crashed })
  | ran (j : TJob) : t.pc = .execJob → t._job = some j →
      WStep i s t ((s.setThread i { t with pc := .unlockJob }).log (.jobReturned i j t._data_ptr))
  | crashUnlock : t.pc = .unlockJob → t._job = none →
      WStep i s t (s.setThread i { t with pc := .crashed })
  | unlock (j : TJob) : t.pc = .unlockJob → t._job = some j →
      WStep i s t (({ s with locked := j.unlock s.locked }.setThread i
        { t with pc := .delJob }).log (.jobUnlocked i j))
  | del (j : TJob) : t.pc = .delJob → t._del_job = true → t._job = some j →
      WStep i s t ((s.setThread i { t with pc := .resetSlot }).log (.jobDeleted i j))
  | keep : t.pc = .delJob → (t._del_job = false ∨ t._job = none) →
      WStep i s t (s.setThread i { t with pc := .resetSlot })
  | reset : t.pc = .resetSlot →
      WStep i s t (s.setThread i { t with _job := none, _data_ptr := none, pc := .loopHead })

/-- The steps of user thread `c`, which is `cl`, one case for each step of a call (a
relation that `clientStep` is shown to follow). -/
inductive CStep (c : Nat) (s : State) (cl : Client) : State → Prop where
  | runNull (p : Option Nat) (del : Bool) (rest : List Call) :
      cl.pc = .ready → cl.todo = .run none p del :: rest →
      CStep c s cl (s.setClient c { pc := .ready, todo := rest })
  | runGet (j : TJob) (p : Option Nat) (del : Bool) (rest : List Call) (thr : Nat)
      (idle : List Nat) :
      cl.pc = .ready → cl.todo = .run (some j) p del :: rest →
      s.pool._idle_threads = thr :: idle →
      CStep c s cl ({ s with pool := { s.pool with _idle_threads := idle } }.setClient c
        { pc := .runGotIdle j p del thr, todo := rest })
  | runLock (j : TJob) (p : Option Nat) (del : Bool) (thr : Nat) :
      cl.pc = .runGotIdle j p del thr → j ∉ s.locked →
      CStep c s cl ({ s with locked := j :: s.locked }.setClient c
        { cl with pc := .runLocked j p del thr })
  | runHand (j : TJob) (p : Option Nat) (del : Bool) (thr : Nat) :
      cl.pc = .runLocked j p del thr →
      CStep c s cl ((({ s with pool := s.pool.onThread thr (TPoolThr.run_job (some j) p del) }).setClient c
        { cl with pc := .ready }).log (.handoff c thr j p del))
  | syncNull (rest : List Call) :
      cl.pc = .ready → cl.todo = .sync none :: rest →
      CStep c s cl (s.setClient c { pc := .ready, todo := rest })
  | syncLock (j : TJob) (rest : List Call) :
      cl.pc = .ready → cl.todo = .sync (some j) :: rest → j ∉ s.locked →
      CStep c s cl ({ s with locked := j :: s.locked }.setClient c
        { pc := .syncLocked j, todo := rest })
  | syncUnlock (j : TJob) :
      cl.pc = .syncLocked j →
      CStep c s cl (({ s with locked := j.unlock s.locked }.setClient c
        { cl with pc := .ready }).log (.syncReturned c j))
  | syncAll (rest : List Call) :
      cl.pc = .ready → cl.todo = .sync_all :: rest →
      ¬ s.pool._idle_threads.length < s.pool._max_parallel →
      CStep c s cl ((s.setClient c { pc := .ready, todo := rest }).log (.syncAllReturned c))
  | destroySync (rest : List Call) :
      cl.pc = .ready → cl.todo = .destroy :: rest →
      ¬ s.pool._idle_threads.length < s.pool._max_parallel →
      CStep c s cl (s.setClient c { pc := .quitting 0, todo := rest })
  | destroyQuit (i : Nat) :
      cl.pc = .quitting i → i < s.pool._max_parallel →
      CStep c s cl ({ s with pool := s.pool.onThread i TPoolThr.quit }.setClient c
        { cl with pc := .quitting (i + 1) })
  | destroyQuitEnd (i : Nat) :
      cl.pc = .quitting i → ¬ i < s.pool._max_parallel →
      CStep c s cl (s.setClient c { cl with pc := .reclaiming 0 })
  | destroyDel (i : Nat) (t : TPoolThr) :
      cl.pc = .reclaiming i → i < s.pool._max_parallel → s.pool._threads[i]? = some t →
      t._del_mutex = false →
      CStep c s cl ((s.setThread i { t with _del_mutex := true, deleted := true }).setClient c
        { cl with pc := .reclaiming (i + 1) })
  | destroyEnd (i : Nat) :
      cl.pc = .reclaiming i → ¬ i < s.pool._max_parallel →
      CStep c s cl (s.setClient c { cl with pc := .ready })

/-! ## Invariants of the interleaved program -/

/-- Shape of the pool: the array has `_max_parallel` threads, the idle list has no
thread twice and holds threads of the array only. -/
structure Inv0 (s : State) : Prop where
  len : s.pool._threads.length = s.pool._max_parallel
  nodup : s.pool._idle_threads.Nodup
  bound : ∀ i ∈ s.pool._idle_threads, i < s.pool._max_parallel

/-- How the pool threads, the idle list and the user threads that hold a pool thread
fit together. -/
structure InvG (s : State) : Prop where
  g1 : ∀ (i : Nat) (t : TPoolThr), s.pool._threads[i]? = some t → i ∈ s.pool._idle_threads → t._job = none
  g2 : ∀ (c : Nat) (cl : Client) (i : Nat), s.clients[c]? = some cl → cl.pc.thr = some i →
    i ∉ s.pool._idle_threads ∧ i < s.pool._max_parallel
  g2t : ∀ (c : Nat) (cl : Client) (i : Nat) (t : TPoolThr), s.clients[c]? = some cl → cl.pc.thr = some i →
    s.pool._threads[i]? = some t → t._job = none ∧ t.fresh = false ∧ t.pc.busy = false
  g3 : ∀ (c1 c2 : Nat) (cl1 cl2 : Client) (i : Nat), s.clients[c1]? = some cl1 → s.clients[c2]? = some cl2 →
    cl1.pc.thr = some i → cl2.pc.thr = some i → c1 = c2
  g4 : ∀ (i : Nat) (t : TPoolThr), s.pool._threads[i]? = some t → (t.fresh = true ∨ t.pc.busy = true) →
    i ∉ s.pool._idle_threads
  g5 : ∀ (i : Nat) (t : TPoolThr), s.pool._threads[i]? = some t → t.fresh = true → t._job = none
  g6 : ∀ (i : Nat) (t : TPoolThr), s.pool._threads[i]? = some t → t.pc = .checkJob → t._end = false → t._job ≠ none

/-- The mutex of a job has one holder at most: a user thread between `lock` and the
hand-over or the `unlock`, or the pool thread that has still to unlock it. -/
structure InvM (s : State) : Prop where
  m1 : ∀ (c : Nat) (cl : Client) (j : TJob), s.clients[c]? = some cl → cl.pc.lockOf = some j →
    j ∈ s.locked
  m2 : ∀ (i : Nat) (t : TPoolThr) (j : TJob), s.pool._threads[i]? = some t → t.owes = some j →
    j ∈ s.locked
  m3 : ∀ (c1 c2 : Nat) (cl1 cl2 : Client) (j : TJob), s.clients[c1]? = some cl1 →
    s.clients[c2]? = some cl2 → cl1.pc.lockOf = some j → cl2.pc.lockOf = some j → c1 = c2
  m4 : ∀ (c : Nat) (cl : Client) (i : Nat) (t : TPoolThr) (j : TJob), s.clients[c]? = some cl →
    s.pool._threads[i]? = some t → cl.pc.lockOf = some j → t.owes = some j → False
  m5 : ∀ (i1 i2 : Nat) (t1 t2 : TPoolThr) (j : TJob), s.pool._threads[i1]? = some t1 →
    s.pool._threads[i2]? = some t2 → t1.owes = some j → t2.owes = some j → i1 = i2

/-- The history and the state fit together: what the mutex of a job and the slot of a
pool thread say about the hand-overs recorded. -/
structure InvT (s : State) : Prop where
  t1 : ∀ (j : TJob), (j ∉ s.locked ∨ ∃ (c : Nat) (cl : Client), s.clients[c]? = some cl ∧
    cl.pc.lockOf = some j) → Answered s.trace j
  t2 : ∀ (i : Nat) (t : TPoolThr) (j : TJob), s.pool._threads[i]? = some t →
    t.toRun = some j → Pending s.trace j i
  t3 : ∀ (i : Nat) (t : TPoolThr) (j : TJob), s.pool._threads[i]? = some t →
    t.toUnlock = some j → Returned s.trace j i
  t4 : SyncSafe s.trace

/-- The history and the state fit together: how often a pool thread was handed a job
and how often it ran the job. -/
structure InvB (s : State) : Prop where
  b1 : ∀ (i : Nat) (t : TPoolThr) (j : TJob), s.pool._threads[i]? = some t →
    t.toRun = some j → OneAhead s.trace i j
  b2 : ∀ (i : Nat) (t : TPoolThr), s.pool._threads[i]? = some t →
    (i ∈ s.pool._idle_threads ∨ t.fresh = true ∨ t.pc.afterRun = true) → Balanced s.trace i
  b3 : ∀ (c : Nat) (cl : Client) (i : Nat), s.clients[c]? = some cl → cl.pc.thr = some i →
    Balanced s.trace i
  b4 : ∀ (i : Nat), s.pool._threads[i]? = none → Balanced s.trace i
  b5 : SyncAllSafe s.trace

/-- All the invariants of the interleaved program. -/
structure Inv (s : State) : Prop where
  i0 : Inv0 s
  iG : InvG s
  iM : InvM s
  iT : InvT s
  iB : InvB s


/-- The thread is a pool thread. -/
def Tid.isWorker : Tid → Bool
  | .worker _ => true
  | .client _ => false

/-- While only pool threads have moved: no thread has a job or was told to end, and
the threads in the idle list are those that wait for work. -/
def InvStart (s : State) : Prop :=
  ∀ (i : Nat) (t : TPoolThr), s.pool._threads[i]? = some t →
    t._job = none ∧ t._end = false ∧ (i ∈ s.pool._idle_threads ↔ t.pc = .waitWork)

/-- First job of the examples. -/
def jobA : TJob := { addr := 1, _job_no := -1 }

/-- Second job of the examples. -/
def jobB : TJob := { addr := 2, _job_no := 7 }

/-- Third job of the examples. -/
def jobC : TJob := { addr := 3, _job_no := 0 }

/-- Example: a pool of one thread and one user thread that submits `jobA`, waits for
it, submits `jobB` and `jobC`, and waits for all jobs. -/
def demoProgs : List (List Call) :=
  [[.run (some jobA) (some 5) false, .sync (some jobA), .run (some jobB) none true,
    .run (some jobC) none false, .sync_all]]

/-- The three steps with which pool thread `0` reaches its wait for work. -/
def demoStart : List Tid := [.worker 0, .worker 0, .worker 0]

/-- The eight steps with which pool thread `0` runs a job and waits again. -/
def demoWork : List Tid :=
  [.worker 0, .worker 0, .worker 0, .worker 0, .worker 0, .worker 0, .worker 0, .worker 0]

/-- The three steps of `TPool::run` in user thread `0`. -/
def demoRun : List Tid := [.client 0, .client 0, .client 0]

/-- Schedule of the example up to the return of `sync( jobA )`. -/
def demoSchedSync : List Tid := demoStart ++ demoRun ++ demoWork ++ [.client 0, .client 0]

/-- Schedule of the example up to the return of `sync_all`. -/
def demoSchedAll : List Tid :=
  demoSchedSync ++ demoRun ++ demoWork ++ demoRun ++ demoWork ++ [.client 0]

/-- State of the example when the pool thread waits for work for the first time. -/
def demoIdle : State := (exec demoStart (State.init 1 demoProgs)).getD (State.init 1 demoProgs)

/-- State of the example when `TPool::run` has taken the pool thread from the idle
list and not yet handed it `jobA`. -/
def demoTaken : State :=
  (exec (demoStart ++ [.client 0]) (State.init 1 demoProgs)).getD (State.init 1 demoProgs)

/-- State of the example when `sync( jobA )` has returned. -/
def demoSynced : State :=
  (exec demoSchedSync (State.init 1 demoProgs)).getD (State.init 1 demoProgs)

/-- State of the example when `sync_all` has returned. -/
def demoDrained : State :=
  (exec demoSchedAll (State.init 1 demoProgs)).getD (State.init 1 demoProgs)

/-- History of the example before the return of `sync_all` (newest event first). -/
def demoHistory : List Event :=
  [Event.jobUnlocked 0 jobC, Event.jobReturned 0 jobC none, Event.handoff 0 0 jobC none false,
   Event.jobDeleted 0 jobB, Event.jobUnlocked 0 jobB, Event.jobReturned 0 jobB none,
   Event.handoff 0 0 jobB none true,
   Event.syncReturned 0 jobA,
   Event.jobUnlocked 0 jobA, Event.jobReturned 0 jobA (some 5),
   Event.handoff 0 0 jobA (some 5) false]

/-- A pool for the examples: three threads, of which `2` and `0` are idle. -/
def demoPool : TPool := { TPool.new 3 with _idle_threads := [2, 0] }

/-! ## The global pool of the namespace -/

/-- The global `thread_pool` and the pools on the heap: `thread_pool` is `NULL`
(`none`) or the address of a pool; `heap` holds the `max_p` of every pool made with
`new TPool( max_p )`, the address of a pool being its index; `deletes` holds the
addresses that were passed to `delete`, the last one first. -/
structure Process where
  thread_pool : Option Nat
  heap : List Nat
  deletes : List Nat
deriving DecidableEq

/-- The process at its start: `TPool * thread_pool = NULL` (line 26). -/
def Process.start : Process := { thread_pool := none, heap := [], deletes := [] }

/-- Statement `delete thread_pool`: the destructor runs on the pool pointed to; nothing
is done for `NULL`; the pointer keeps its value. -/
def Process.deletePool (g : Process) : Process :=
  match g.thread_pool with
  | none => g
  | some a => { g with deletes := a :: g.deletes }

/-- Function `init` of the namespace (lines 367-375). -/
def init (max_p : Nat) (g : Process) : Process :=
  let g1 := if g.thread_pool ≠ none then g.deletePool else g
  { g1 with thread_pool := some g1.heap.length, heap := g1.heap ++ [max_p] }

/-- Function `done` of the namespace (lines 410-414). -/
def done (g : Process) : Process := g.deletePool

/-- The pool at address `a` exists and its destructor has not run. -/
def Process.live (g : Process) (a : Nat) : Prop := a < g.heap.length ∧ a ∉ g.deletes

/-! ## The rounds of a pool thread -/

/-- Example: a pool of one thread and one user thread that submits `jobB`, to be
deleted by the pool, and then destroys the pool. -/
def demoProgsEnd : List (List Call) := [[.run (some jobB) (some 9) true, .destroy]]

/-- State of the second example when the job has run and the destructor is called. -/
def demoBeforeEnd : State :=
  (exec (demoStart ++ demoRun ++ demoWork) (State.init 1 demoProgsEnd)).getD
    (State.init 1 demoProgsEnd)

/-- State of the second example when the destructor has called `quit` on the pool
thread, which still waits. -/
def demoQuit : State :=
  (exec [Tid.client 0, Tid.client 0] demoBeforeEnd).getD demoBeforeEnd

set_option linter.unusedTactic false

set_option linter.unnecessarySimpa false

set_option linter.unusedVariables false

theorem get_set_cases {α : Type} {l : List α} {i k : Nat} {a b : α}
    (h : (l.set i a)[k]? = some b) : (k = i ∧ b = a) ∨ (k ≠ i ∧ l[k]? = some b) := by
  rw [List.getElem?_set] at h
  by_cases hik : i = k
  · subst hik
    simp only [if_true] at h
    split at h
    · left; exact ⟨rfl, (Option.some.inj h).symm⟩
    · cases h
  · right
    rw [if_neg hik] at h
    exact ⟨fun e => hik e.symm, h⟩

theorem TPool.onThread_max (i : Nat) (f : TPoolThr → TPoolThr) (p : TPool) :
    (p.onThread i f)._max_parallel = p._max_parallel := by
  unfold TPool.onThread; split <;> rfl

theorem TPool.onThread_idle (i : Nat) (f : TPoolThr → TPoolThr) (p : TPool) :
    (p.onThread i f)._idle_threads = p._idle_threads := by
  unfold TPool.onThread; split <;> rfl

theorem TPool.onThread_length (i : Nat) (f : TPoolThr → TPoolThr) (p : TPool) :
    (p.onThread i f)._threads.length = p._threads.length := by
  unfold TPool.onThread; split <;> simp

theorem TPool.onThread_cases {i k : Nat} {f : TPoolThr → TPoolThr} {p : TPool} {b : TPoolThr}
    (h : (p.onThread i f)._threads[k]? = some b) :
    (k = i ∧ ∃ a, p._threads[k]? = some a ∧ b = f a) ∨ (k ≠ i ∧ p._threads[k]? = some b) := by
  unfold TPool.onThread at h
  split at h
  · rename_i hn
    right
    refine ⟨?_, h⟩
    rintro rfl
    rw [hn] at h; cases h
  · rename_i a ha
    rcases get_set_cases h with ⟨rfl, rfl⟩ | ⟨hne, hk⟩
    · left; exact ⟨rfl, a, ha, rfl⟩
    · right; exact ⟨hne, hk⟩

theorem TPool.append_idle_max (i : Nat) (p : TPool) :
    (p.append_idle i)._max_parallel = p._max_parallel := by
  unfold TPool.append_idle; split <;> rfl

theorem TPool.append_idle_threads (i : Nat) (p : TPool) :
    (p.append_idle i)._threads = p._threads := by
  unfold TPool.append_idle; split <;> rfl

theorem TPool.mem_append_idle (i k : Nat) (p : TPool) :
    k ∈ (p.append_idle i)._idle_threads ↔ k ∈ p._idle_threads ∨ k = i := by
  unfold TPool.append_idle
  split
  · rename_i h
    constructor
    · intro hk; exact Or.inl hk
    · rintro (hk | rfl)
      · exact hk
      · exact h
  · simp

theorem TPool.append_idle_nodup (i : Nat) (p : TPool) (h : p._idle_threads.Nodup) :
    (p.append_idle i)._idle_threads.Nodup := by
  unfold TPool.append_idle
  split
  · exact h
  · rename_i hi
    simp only
    rw [List.nodup_append]
    refine ⟨h, List.nodup_singleton i, ?_⟩
    intro a ha hb
    simp at hb
    subst hb
    exact hi ha

theorem TPool.get_idle_ret {p p1 : TPool} {t : Nat} (h : p.get_idle = .ret (t, p1)) :
    ∃ rest, p._idle_threads = t :: rest ∧ p1 = { p with _idle_threads := rest } := by
  unfold TPool.get_idle at h
  split at h
  · cases h
  · rename_i t1 rest heq
    cases h
    exact ⟨rest, heq, rfl⟩

theorem TJob.lock_ret {j : TJob} {l l1 : List TJob} (h : j.lock l = .ret l1) :
    j ∉ l ∧ l1 = j :: l := by
  unfold TJob.lock at h
  split at h
  · cases h
  · rename_i hj
    cases h
    exact ⟨hj, rfl⟩

theorem TJob.mem_unlock (j k : TJob) (l : List TJob) : k ∈ j.unlock l ↔ k ∈ l ∧ k ≠ j := by
  unfold TJob.unlock
  simp

theorem inv0_init (max_p : Nat) (progs : List (List Call)) : Inv0 (State.init max_p progs) := by
  refine ⟨?_, ?_, ?_⟩ <;> simp [State.init, TPool.new]

theorem inv0_worker (i : Nat) (s s' : State) (h : Inv0 s) (hs : workerStep i s = some s') :
    Inv0 s' := by
  obtain ⟨hl, hn, hb⟩ := h
  unfold workerStep at hs
  split at hs
  · simp at hs
  · rename_i t ht
    have hi : i < s.pool._max_parallel := by
      rw [← hl]; exact (List.getElem?_eq_some.1 ht).1
    split at hs
    · simp at hs
    · split at hs <;> (try split at hs) <;> simp at hs <;> subst hs <;>
        (first
          | exact ⟨by simpa using hl, by simpa using hn, by simpa using hb⟩
          | skip)
      refine ⟨?_, ?_, ?_⟩
      · simpa [TPool.append_idle_threads, TPool.append_idle_max] using hl
      · simpa using TPool.append_idle_nodup i s.pool hn
      · intro k hk
        simp only [TPool.append_idle_max]
        rcases (TPool.mem_append_idle i k s.pool).1 hk with hk | rfl
        · exact hb k hk
        · exact hi

theorem inv0_client (c : Nat) (s s' : State) (h : Inv0 s) (hs : clientStep c s = some s') :
    Inv0 s' := by
  obtain ⟨hl, hn, hb⟩ := h
  unfold clientStep at hs
  split at hs
  · simp at hs
  · rename_i cl hcl
    split at hs
    · split at hs
      · simp at hs
      · simp at hs; subst hs; exact ⟨hl, hn, hb⟩
      · split at hs
        · rename_i thr pool1 hg
          obtain ⟨rest, hrest, rfl⟩ := TPool.get_idle_ret hg
          simp at hs; subst hs
          rw [hrest] at hn hb
          refine ⟨hl, (List.nodup_cons.1 hn).2, ?_⟩
          intro k hk
          exact hb k (List.mem_cons_of_mem _ hk)
        · simp at hs
      · simp at hs; subst hs; exact ⟨hl, hn, hb⟩
      · split at hs
        · simp at hs; subst hs; exact ⟨hl, hn, hb⟩
        · simp at hs
      · split at hs
        · simp at hs; subst hs; exact ⟨hl, hn, hb⟩
        · simp at hs
      · split at hs
        · simp at hs; subst hs; exact ⟨hl, hn, hb⟩
        · simp at hs
    · split at hs
      · simp at hs; subst hs; exact ⟨hl, hn, hb⟩
      · simp at hs
    · simp at hs; subst hs
      refine ⟨?_, ?_, ?_⟩
      · simpa [TPool.onThread_length, TPool.onThread_max] using hl
      · simpa [TPool.onThread_idle] using hn
      · simpa [TPool.onThread_idle, TPool.onThread_max] using hb
    · simp at hs; subst hs; exact ⟨hl, hn, hb⟩
    · split at hs
      · simp at hs; subst hs
        refine ⟨?_, ?_, ?_⟩
        · simpa [TPool.onThread_length, TPool.onThread_max] using hl
        · simpa [TPool.onThread_idle] using hn
        · simpa [TPool.onThread_idle, TPool.onThread_max] using hb
      · simp at hs; subst hs; exact ⟨hl, hn, hb⟩
    · split at hs
      · split at hs
        · simp at hs
        · split at hs
          · simp at hs
          · simp at hs; subst hs
            exact ⟨by simpa using hl, hn, hb⟩
      · simp at hs; subst hs; exact ⟨hl, hn, hb⟩

theorem workerStep_sound {i : Nat} {s s' : State} (hs : workerStep i s = some s') :
    ∃ t, s.pool._threads[i]? = some t ∧ t.deleted = false ∧ WStep i s t s' := by
  unfold workerStep at hs
  split at hs
  · simp at hs
  · rename_i t ht
    refine ⟨t, ht, ?_⟩
    split at hs
    · simp at hs
    · rename_i hd
      refine ⟨by simpa using hd, ?_⟩
      split at hs
      · simp at hs
      · rename_i hpc
        split at hs
        · simp at hs
        · rename_i hm
          cases hs
          exact .start hpc (by simpa using hm)
      · rename_i hpc
        split at hs
        · rename_i he; cases hs; exact .leave hpc he
        · rename_i he; cases hs; exact .enter hpc (by simpa using he)
      · rename_i hpc
        cases hs; exact .append hpc
      · rename_i hpc
        split at hs
        · simp at hs
        · rename_i hw; cases hs; exact .wake hpc hw
      · rename_i hpc
        split at hs
        · rename_i hj; cases hs; exact .take hpc hj
        · rename_i hj; cases hs; exact .skip hpc (by simpa using hj)
      · rename_i hpc
        split at hs
        · rename_i hj; cases hs; exact .crashRun hpc hj
        · rename_i j hj; cases hs; exact .ran j hpc hj
      · rename_i hpc
        split at hs
        · rename_i hj; cases hs; exact .crashUnlock hpc hj
        · rename_i j hj; cases hs; exact .unlock j hpc hj
      · rename_i hpc
        split at hs
        · rename_i j hd hj; cases hs; exact .del j hpc hd hj
        · rename_i hn
          cases hs
          refine .keep hpc ?_
          cases hd : t._del_job
          · exact Or.inl rfl
          · right
            cases hj : t._job
            · rfl
            · exact absurd hj (hn _ hd)
      · rename_i hpc
        cases hs; exact .reset hpc
      · simp at hs
      · simp at hs

theorem clientStep_sound {c : Nat} {s s' : State} (hs : clientStep c s = some s') :
    ∃ cl, s.clients[c]? = some cl ∧ CStep c s cl s' := by
  unfold clientStep at hs
  split at hs
  · simp at hs
  · rename_i cl hcl
    refine ⟨cl, hcl, ?_⟩
    split at hs
    · rename_i hpc
      split at hs
      · simp at hs
      · rename_i p del rest htodo
        cases hs; exact .runNull p del rest hpc htodo
      · rename_i j p del rest htodo
        split at hs
        · rename_i thr pool1 hg
          obtain ⟨idle, hidle, rfl⟩ := TPool.get_idle_ret hg
          cases hs
          exact .runGet j p del rest thr idle hpc htodo hidle
        · simp at hs
      · rename_i rest htodo
        cases hs; exact .syncNull rest hpc htodo
      · rename_i j rest htodo
        split at hs
        · rename_i l1 hl
          obtain ⟨hj, rfl⟩ := TJob.lock_ret hl
          cases hs
          exact .syncLock j rest hpc htodo hj
        · simp at hs
      · rename_i rest htodo
        split at hs
        · rename_i p1 hp
          cases hs
          refine .syncAll rest hpc htodo ?_
          unfold TPool.sync_all at hp
          split at hp
          · cases hp
          · assumption
        · simp at hs
      · rename_i rest htodo
        split at hs
        · rename_i p1 hp
          cases hs
          refine .destroySync rest hpc htodo ?_
          unfold TPool.sync_all at hp
          split at hp
          · cases hp
          · assumption
        · simp at hs
    · rename_i j p del thr hpc
      split at hs
      · rename_i l1 hl
        obtain ⟨hj, rfl⟩ := TJob.lock_ret hl
        cases hs
        exact .runLock j p del thr hpc hj
      · simp at hs
    · rename_i j p del thr hpc
      cases hs
      exact .runHand j p del thr hpc
    · rename_i j hpc
      cases hs
      exact .syncUnlock j hpc
    · rename_i i hpc
      split at hs
      · rename_i hi; cases hs; exact .destroyQuit i hpc hi
      · rename_i hi; cases hs; exact .destroyQuitEnd i hpc hi
    · rename_i i hpc
      split at hs
      · rename_i hi
        split at hs
        · simp at hs
        · rename_i t ht
          split at hs
          · simp at hs
          · rename_i hm
            cases hs
            exact .destroyDel i t hpc hi ht (by simpa using hm)
      · rename_i hi; cases hs; exact .destroyEnd i hpc hi

theorem invG_wstep {i : Nat} {s s' : State} {t : TPoolThr} (hG : InvG s)
    (ht : s.pool._threads[i]? = some t) (hw : WStep i s t s') : InvG s' := by
  obtain ⟨g1, g2, g2t, g3, g4, g5, g6⟩ := hG
  have hg1 := g1 i t ht
  have hg4 := g4 i t ht
  have hg5 := g5 i t ht
  have hg6 := g6 i t ht
  have hheld : ∀ (c : Nat) (cl : Client), s.clients[c]? = some cl → cl.pc.thr = some i →
      t._job = none ∧ t.fresh = false ∧ t.pc.busy = false := fun c cl h1 h2 => g2t c cl i t h1 h2 ht
  refine ⟨?_, ?_, ?_, ?_, ?_, ?_, ?_⟩
  · -- g1
    cases hw <;> intro k tk hk hidle <;>
      simp only [State.setThread, State.log, TPool.append_idle_threads, TPool.mem_append_idle] at hk hidle <;>
      rcases get_set_cases hk with ⟨rfl, rfl⟩ | ⟨hne, hk⟩ <;>
      first
      | exact g1 k tk hk hidle
      | exact g1 k tk hk (by simpa [hne] using hidle)
      | (clear g1 g2 g2t g3 g4 g5 g6 hheld; simp_all [TPoolThr.fresh, WPc.busy]; done)
  · -- g2
    cases hw <;> intro c cl k hcl hthr <;>
      simp only [State.setThread, State.log, TPool.append_idle_max, TPool.mem_append_idle] at hcl ⊢ <;>
      first
      | exact g2 c cl k hcl hthr
      | skip
    rename_i hpc
    refine ⟨?_, (g2 c cl k hcl hthr).2⟩
    rintro (h | rfl)
    · exact (g2 c cl k hcl hthr).1 h
    · have := (hheld c cl hcl hthr).2.1
      simp [TPoolThr.fresh, hpc] at this
  · -- g2t
    cases hw <;> intro c cl k tk hcl hthr hk <;>
      simp only [State.setThread, State.log, TPool.append_idle_threads] at hcl hk <;>
      rcases get_set_cases hk with ⟨rfl, rfl⟩ | ⟨hne, hk⟩ <;>
      first
      | exact g2t c cl k tk hcl hthr hk
      | (have hh := hheld c cl hcl hthr
         clear g1 g2 g2t g3 g4 g5 g6 hheld; simp_all [TPoolThr.fresh, WPc.busy]; done)
  · -- g3
    cases hw <;> intro c1 c2 cl1 cl2 k h1 h2 <;>
      simp only [State.setThread, State.log] at h1 h2 <;>
      exact g3 c1 c2 cl1 cl2 k h1 h2
  · -- g4
    cases hw <;> intro k tk hk hfb <;>
      simp only [State.setThread, State.log, TPool.append_idle_threads, TPool.mem_append_idle] at hk ⊢ <;>
      rcases get_set_cases hk with ⟨rfl, rfl⟩ | ⟨hne, hk⟩ <;>
      first
      | exact g4 k tk hk hfb
      | (have h5 := g4 k tk hk hfb; simp [hne, h5]; done)
      | (clear g1 g2 g2t g3 g4 g5 g6 hheld; simp_all [TPoolThr.fresh, WPc.busy]; done)
  · -- g5
    cases hw <;> intro k tk hk hf <;>
      simp only [State.setThread, State.log, TPool.append_idle_threads] at hk <;>
      rcases get_set_cases hk with ⟨rfl, rfl⟩ | ⟨hne, hk⟩ <;>
      first
      | exact g5 k tk hk hf
      | (clear g1 g2 g2t g3 g4 g5 g6 hheld; simp_all [TPoolThr.fresh, WPc.busy]; done)
  · -- g6
    cases hw <;> intro k tk hk hpc he <;>
      simp only [State.setThread, State.log, TPool.append_idle_threads] at hk <;>
      rcases get_set_cases hk with ⟨rfl, rfl⟩ | ⟨hne, hk⟩ <;>
      first
      | exact g6 k tk hk hpc he
      | (clear g1 g2 g2t g3 g4 g5 g6 hheld; simp_all [TPoolThr.fresh, WPc.busy]; done)

theorem head_mem_of_eq_cons {l r : List Nat} {a : Nat} (h : l = a :: r) : a ∈ l :=
  h ▸ List.mem_cons_self _ _

theorem tail_mem_of_eq_cons {l r : List Nat} {a k : Nat} (h : l = a :: r) (hk : k ∈ r) : k ∈ l :=
  h ▸ List.mem_cons_of_mem _ hk

theorem TPoolThr.fresh_run_job (j : Option TJob) (p : Option Nat) (del : Bool) (t : TPoolThr) :
    (t.run_job j p del).fresh = t.fresh := rfl

theorem TPoolThr.fresh_quit (t : TPoolThr) (h : t.quit.fresh = true) : t.fresh = true := by
  unfold TPoolThr.fresh TPoolThr.quit at *
  cases hpc : t.pc <;> simp_all

theorem invG_cstep {c : Nat} {s s' : State} {cl : Client} (h0 : Inv0 s) (hG : InvG s)
    (hc : s.clients[c]? = some cl) (hw : CStep c s cl s') : InvG s' := by
  obtain ⟨g1, g2, g2t, g3, g4, g5, g6⟩ := hG
  obtain ⟨hlen, hnd, hbd⟩ := h0
  have hg2 := g2 c cl
  have hg2t := g2t c cl
  refine ⟨?_, ?_, ?_, ?_, ?_, ?_, ?_⟩
  · -- g1
    cases hw <;> intro k tk hk hidle <;>
      simp only [State.setThread, State.setClient, State.log, TPool.onThread_idle] at hk hidle <;>
      first
      | exact g1 k tk hk hidle
      | skip
    case runGet =>
      exact g1 k tk hk (by rw [‹s.pool._idle_threads = _›]; exact List.mem_cons_of_mem _ hidle)
    case runHand =>
      rcases TPool.onThread_cases hk with ⟨rfl, a, ha, rfl⟩ | ⟨hne, hk⟩
      · exact absurd hidle (hg2 k hc (by simp [‹cl.pc = _›, CPc.thr])).1
      · exact g1 k tk hk hidle
    case destroyQuit =>
      rcases TPool.onThread_cases hk with ⟨rfl, a, ha, rfl⟩ | ⟨hne, hk⟩
      · rfl
      · exact g1 k tk hk hidle
    case destroyDel =>
      rcases get_set_cases hk with ⟨rfl, rfl⟩ | ⟨hne, hk⟩
      · have ht := ‹s.pool._threads[k]? = some _›
        exact (g1 k _ ht hidle :)
      · exact g1 k tk hk hidle
  · -- g2
    cases hw <;> intro c2 cl2 k hcl hthr <;>
      simp only [State.setThread, State.setClient, State.log, TPool.onThread_idle,
        TPool.onThread_max] at hcl ⊢ <;>
      rcases get_set_cases hcl with ⟨rfl, rfl⟩ | ⟨hne, hcl'⟩ <;>
      first
      | exact g2 c2 cl2 k hcl' hthr
      | (simp [CPc.thr] at hthr; done)
      | skip
    case runGet.inl.intro =>
      simp [CPc.thr] at hthr
      subst hthr
      rw [‹s.pool._idle_threads = _›] at hnd hbd
      exact ⟨(List.nodup_cons.1 hnd).1, hbd _ (List.mem_cons_self _ _)⟩
    case runGet.inr.intro =>
      have := g2 c2 cl2 k hcl' hthr
      rw [‹s.pool._idle_threads = _›] at this
      exact ⟨fun h => this.1 (List.mem_cons_of_mem _ h), this.2⟩
    case runLock.inl.intro =>
      simp [CPc.thr] at hthr
      subst hthr
      exact hg2 _ hc (by simp [‹cl.pc = _›, CPc.thr])
  · -- g2t
    cases hw <;> intro c2 cl2 k tk hcl hthr hk <;>
      simp only [State.setThread, State.setClient, State.log, TPool.onThread_idle,
        TPool.onThread_max] at hcl hk <;>
      rcases get_set_cases hcl with ⟨rfl, rfl⟩ | ⟨hne, hcl'⟩ <;>
      first
      | exact g2t c2 cl2 k tk hcl' hthr hk
      | (simp [CPc.thr] at hthr; done)
      | skip
    case runGet.inl.intro =>
      simp [CPc.thr] at hthr
      subst hthr
      have hin := head_mem_of_eq_cons ‹s.pool._idle_threads = _›
      refine ⟨g1 _ tk hk hin, ?_, ?_⟩
      · cases hf : tk.fresh
        · rfl
        · exact absurd hin (g4 _ tk hk (Or.inl hf))
      · cases hf : tk.pc.busy
        · rfl
        · exact absurd hin (g4 _ tk hk (Or.inr hf))
    case runLock.inl.intro =>
      simp [CPc.thr] at hthr
      subst hthr
      exact hg2t _ tk hc (by simp [‹cl.pc = _›, CPc.thr]) hk
    case runHand.inr.intro =>
      rcases TPool.onThread_cases hk with ⟨rfl, a, ha, rfl⟩ | ⟨hne2, hk⟩
      · exact absurd (g3 c2 c cl2 cl k hcl' hc hthr (by simp [‹cl.pc = _›, CPc.thr])) hne
      · exact g2t c2 cl2 k tk hcl' hthr hk
    case destroyQuit.inr.intro =>
      rcases TPool.onThread_cases hk with ⟨rfl, a, ha, rfl⟩ | ⟨hne2, hk⟩
      · have := g2t c2 cl2 k a hcl' hthr ha
        refine ⟨rfl, ?_, this.2.2⟩
        cases hf : a.quit.fresh
        · rfl
        · rw [TPoolThr.fresh_quit a hf] at this
          simp at this
      · exact g2t c2 cl2 k tk hcl' hthr hk
    case destroyDel.inr.intro =>
      rcases get_set_cases hk with ⟨rfl, rfl⟩ | ⟨hne2, hk⟩
      · have ht := ‹s.pool._threads[k]? = some _›
        exact (g2t c2 cl2 k _ hcl' hthr ht :)
      · exact g2t c2 cl2 k tk hcl' hthr hk
  · -- g3
    cases hw <;> intro c1 c2 cl1 cl2 k h1 h2 ht1 ht2 <;>
      simp only [State.setThread, State.setClient, State.log] at h1 h2 <;>
      rcases get_set_cases h1 with ⟨rfl, rfl⟩ | ⟨hne1, h1⟩ <;>
      rcases get_set_cases h2 with ⟨e2, rfl⟩ | ⟨hne2, h2⟩ <;>
      first
      | exact g3 c1 c2 cl1 cl2 k h1 h2 ht1 ht2
      | exact e2.symm
      | exact e2
      | (simp [CPc.thr] at ht1; done)
      | (simp [CPc.thr] at ht2; done)
      | skip
    case runGet.inl.intro.inr.intro =>
      simp [CPc.thr] at ht1
      subst ht1
      have := (g2 c2 cl2 _ h2 ht2).1
      rw [‹s.pool._idle_threads = _›] at this
      simp at this
    case runGet.inr.intro.inl.intro =>
      simp [CPc.thr] at ht2
      subst ht2
      have := (g2 c1 cl1 _ h1 ht1).1
      rw [‹s.pool._idle_threads = _›] at this
      simp at this
    case runLock.inl.intro.inr.intro =>
      simp [CPc.thr] at ht1
      subst ht1
      exact g3 _ _ _ _ _ hc h2 (by simp [‹cl.pc = _›, CPc.thr]) ht2
    case runLock.inr.intro.inl.intro =>
      simp [CPc.thr] at ht2
      subst ht2
      exact (g3 _ _ _ _ _ h1 hc ht1 (by simp [‹cl.pc = _›, CPc.thr])).trans e2.symm
  · -- g4
    cases hw <;> intro k tk hk hfb <;>
      simp only [State.setThread, State.setClient, State.log, TPool.onThread_idle] at hk ⊢ <;>
      first
      | exact g4 k tk hk hfb
      | skip
    case runGet =>
      have := g4 k tk hk hfb
      rw [‹s.pool._idle_threads = _›] at this
      exact fun h => this (List.mem_cons_of_mem _ h)
    case runHand =>
      rcases TPool.onThread_cases hk with ⟨rfl, a, ha, rfl⟩ | ⟨hne, hk⟩
      · exact (hg2 k hc (by simp [‹cl.pc = _›, CPc.thr])).1
      · exact g4 k tk hk hfb
    case destroyQuit =>
      rcases TPool.onThread_cases hk with ⟨rfl, a, ha, rfl⟩ | ⟨hne, hk⟩
      · refine g4 k a ha ?_
        rcases hfb with hf | hb
        · exact Or.inl (TPoolThr.fresh_quit a hf)
        · exact Or.inr hb
      · exact g4 k tk hk hfb
    case destroyDel =>
      rcases get_set_cases hk with ⟨rfl, rfl⟩ | ⟨hne, hk⟩
      · have ht := ‹s.pool._threads[k]? = some _›
        exact (g4 k _ ht hfb :)
      · exact g4 k tk hk hfb
  · -- g5
    cases hw <;> intro k tk hk hf <;>
      simp only [State.setThread, State.setClient, State.log, TPool.onThread_idle] at hk <;>
      first
      | exact g5 k tk hk hf
      | skip
    case runHand =>
      rcases TPool.onThread_cases hk with ⟨rfl, a, ha, rfl⟩ | ⟨hne, hk⟩
      · have := (hg2t k a hc (by simp [‹cl.pc = _›, CPc.thr]) ha).2.1
        rw [TPoolThr.fresh_run_job] at hf
        rw [hf] at this
        cases this
      · exact g5 k tk hk hf
    case destroyQuit =>
      rcases TPool.onThread_cases hk with ⟨rfl, a, ha, rfl⟩ | ⟨hne, hk⟩
      · rfl
      · exact g5 k tk hk hf
    case destroyDel =>
      rcases get_set_cases hk with ⟨rfl, rfl⟩ | ⟨hne, hk⟩
      · have ht := ‹s.pool._threads[k]? = some _›
        exact (g5 k _ ht hf :)
      · exact g5 k tk hk hf
  · -- g6
    cases hw <;> intro k tk hk hpc he <;>
      simp only [State.setThread, State.setClient, State.log, TPool.onThread_idle] at hk <;>
      first
      | exact g6 k tk hk hpc he
      | skip
    case runHand =>
      rcases TPool.onThread_cases hk with ⟨rfl, a, ha, rfl⟩ | ⟨hne, hk⟩
      · simp [TPoolThr.run_job]
      · exact g6 k tk hk hpc he
    case destroyQuit =>
      rcases TPool.onThread_cases hk with ⟨rfl, a, ha, rfl⟩ | ⟨hne, hk⟩
      · simp [TPoolThr.quit] at he
      · exact g6 k tk hk hpc he
    case destroyDel =>
      rcases get_set_cases hk with ⟨rfl, rfl⟩ | ⟨hne, hk⟩
      · have ht := ‹s.pool._threads[k]? = some _›
        exact (g6 k _ ht hpc he :)
      · exact g6 k tk hk hpc he

theorem invM_wstep {i : Nat} {s s' : State} {t : TPoolThr} (hG : InvG s) (hM : InvM s)
    (ht : s.pool._threads[i]? = some t) (hw : WStep i s t s') : InvM s' := by
  obtain ⟨m1, m2, m3, m4, m5⟩ := hM
  have hg5 := hG.g5 i t ht
  have hm2 := m2 i t
  refine ⟨?_, ?_, ?_, ?_, ?_⟩
  · -- m1
    cases hw <;> intro c cl j hcl hl <;>
      simp only [State.setThread, State.log, TJob.mem_unlock] at hcl ⊢ <;>
      first
      | exact m1 c cl j hcl hl
      | skip
    refine ⟨m1 c cl j hcl hl, ?_⟩
    rintro rfl
    exact m4 c cl i t j hcl ht hl (by simp [TPoolThr.owes, *])
  · -- m2
    cases hw <;> intro k tk j hk ho <;>
      simp only [State.setThread, State.log, TPool.append_idle_threads, TJob.mem_unlock] at hk ⊢ <;>
      rcases get_set_cases hk with ⟨rfl, rfl⟩ | ⟨hne, hk⟩ <;>
      first
      | exact m2 k tk j hk ho
      | (exact m2 k t j ht (by simpa [TPoolThr.owes, *] using ho))
      | (clear m1 m2 m3 m4 m5 hG; simp_all [TPoolThr.fresh, TPoolThr.owes]; done)
      | skip
    refine ⟨m2 k tk j hk ho, ?_⟩
    rintro rfl
    exact hne (m5 k i tk t j hk ht ho (by simp [TPoolThr.owes, *]))
  · -- m3
    cases hw <;> intro c1 c2 cl1 cl2 j h1 h2 <;>
      simp only [State.setThread, State.log] at h1 h2 <;>
      exact m3 c1 c2 cl1 cl2 j h1 h2
  · -- m4
    cases hw <;> intro c cl k tk j hcl hk hl ho <;>
      simp only [State.setThread, State.log, TPool.append_idle_threads] at hcl hk <;>
      rcases get_set_cases hk with ⟨rfl, rfl⟩ | ⟨hne, hk⟩ <;>
      first
      | exact m4 c cl k tk j hcl hk hl ho
      | (exact m4 c cl k t j hcl ht hl (by simpa [TPoolThr.owes, *] using ho))
      | (clear m1 m2 m3 m4 m5 hG; simp_all [TPoolThr.fresh, TPoolThr.owes]; done)
  · -- m5
    cases hw <;> intro k1 k2 t1 t2 j h1 h2 ho1 ho2 <;>
      simp only [State.setThread, State.log, TPool.append_idle_threads] at h1 h2 <;>
      rcases get_set_cases h1 with ⟨rfl, rfl⟩ | ⟨hne1, h1⟩ <;>
      rcases get_set_cases h2 with ⟨e2, rfl⟩ | ⟨hne2, h2⟩ <;>
      first
      | exact m5 k1 k2 t1 t2 j h1 h2 ho1 ho2
      | exact e2.symm
      | exact e2
      | (exact m5 _ _ t t2 j ht h2 (by simpa [TPoolThr.owes, *] using ho1) ho2)
      | (exact (m5 _ _ t1 t j h1 ht ho1 (by simpa [TPoolThr.owes, *] using ho2)).trans e2.symm)
      | (clear m1 m2 m3 m4 m5 hG; simp_all [TPoolThr.fresh, TPoolThr.owes]; done)

theorem TPoolThr.owes_quit (t : TPoolThr) : t.quit.owes = none := by
  unfold TPoolThr.owes TPoolThr.quit
  cases t.pc <;> rfl

theorem TPoolThr.owes_run_job {j : TJob} {j1 : TJob} {p : Option Nat} {del : Bool} {t : TPoolThr}
    (h : (t.run_job (some j) p del).owes = some j1) : j1 = j := by
  unfold TPoolThr.owes TPoolThr.run_job at h
  cases hpc : t.pc <;> simp [hpc] at h <;> exact h.symm

theorem invM_cstep {c : Nat} {s s' : State} {cl : Client} (hM : InvM s)
    (hc : s.clients[c]? = some cl) (hw : CStep c s cl s') : InvM s' := by
  obtain ⟨m1, m2, m3, m4, m5⟩ := hM
  refine ⟨?_, ?_, ?_, ?_, ?_⟩
  · -- m1
    cases hw <;> intro c2 cl2 j2 hcl hl <;>
      simp only [State.setThread, State.setClient, State.log, TJob.mem_unlock] at hcl ⊢ <;>
      rcases get_set_cases hcl with ⟨rfl, rfl⟩ | ⟨hne, hcl'⟩ <;>
      first
      | exact m1 c2 cl2 j2 hcl' hl
      | exact List.mem_cons_of_mem _ (m1 c2 cl2 j2 hcl' hl)
      | (simp [CPc.lockOf] at hl; done)
      | (simp [CPc.lockOf] at hl; subst hl; exact List.mem_cons_self _ _)
      | skip
    refine ⟨m1 c2 cl2 j2 hcl' hl, ?_⟩
    rintro rfl
    exact hne (m3 c2 c cl2 cl j2 hcl' hc hl (by simp [CPc.lockOf, *]))
  · -- m2
    cases hw <;> intro k tk j2 hk ho <;>
      simp only [State.setThread, State.setClient, State.log, TJob.mem_unlock] at hk ⊢ <;>
      first
      | exact m2 k tk j2 hk ho
      | exact List.mem_cons_of_mem _ (m2 k tk j2 hk ho)
      | skip
    case runHand =>
      rcases TPool.onThread_cases hk with ⟨rfl, a, ha, rfl⟩ | ⟨hne, hk⟩
      · have := TPoolThr.owes_run_job ho
        subst this
        exact m1 c cl _ hc (by simp [CPc.lockOf, *])
      · exact m2 k tk j2 hk ho
    case syncUnlock =>
      refine ⟨m2 k tk j2 hk ho, ?_⟩
      rintro rfl
      exact m4 c cl k tk j2 hc hk (by simp [CPc.lockOf, *]) ho
    case destroyQuit =>
      rcases TPool.onThread_cases hk with ⟨rfl, a, ha, rfl⟩ | ⟨hne, hk⟩
      · rw [TPoolThr.owes_quit] at ho; cases ho
      · exact m2 k tk j2 hk ho
    case destroyDel =>
      rcases get_set_cases hk with ⟨rfl, rfl⟩ | ⟨hne, hk⟩
      · have ht := ‹s.pool._threads[k]? = some _›
        exact (m2 k _ j2 ht ho :)
      · exact m2 k tk j2 hk ho
  · -- m3
    cases hw <;> intro c1 c2 cl1 cl2 j2 h1 h2 hl1 hl2 <;>
      simp only [State.setThread, State.setClient, State.log] at h1 h2 <;>
      rcases get_set_cases h1 with ⟨rfl, rfl⟩ | ⟨hne1, h1'⟩ <;>
      rcases get_set_cases h2 with ⟨e2, rfl⟩ | ⟨hne2, h2'⟩ <;>
      first
      | exact m3 c1 c2 cl1 cl2 j2 h1' h2' hl1 hl2
      | exact e2.symm
      | exact e2
      | (simp [CPc.lockOf] at hl1; done)
      | (simp [CPc.lockOf] at hl2; done)
      | (simp [CPc.lockOf] at hl1; subst hl1
         exact absurd (m1 _ _ _ h2' hl2) ‹_ ∉ s.locked›)
      | (simp [CPc.lockOf] at hl2; subst hl2
         exact absurd (m1 _ _ _ h1' hl1) ‹_ ∉ s.locked›)
  · -- m4
    cases hw <;> intro c2 cl2 k tk j2 hcl hk hl ho <;>
      simp only [State.setThread, State.setClient, State.log] at hcl hk <;>
      rcases get_set_cases hcl with ⟨rfl, rfl⟩ | ⟨hne, hcl'⟩ <;>
      first
      | exact m4 c2 cl2 k tk j2 hcl' hk hl ho
      | (simp [CPc.lockOf] at hl; done)
      | (simp [CPc.lockOf] at hl; subst hl
         exact absurd (m2 _ _ _ hk ho) ‹_ ∉ s.locked›)
      | skip
    case runHand.inr.intro =>
      rcases TPool.onThread_cases hk with ⟨rfl, a, ha, rfl⟩ | ⟨hne2, hk⟩
      · have := TPoolThr.owes_run_job ho
        subst this
        exact hne (m3 c2 c cl2 cl _ hcl' hc hl (by simp [CPc.lockOf, *]))
      · exact m4 c2 cl2 k tk j2 hcl' hk hl ho
    case destroyQuit.inr.intro =>
      rcases TPool.onThread_cases hk with ⟨rfl, a, ha, rfl⟩ | ⟨hne2, hk⟩
      · rw [TPoolThr.owes_quit] at ho; cases ho
      · exact m4 c2 cl2 k tk j2 hcl' hk hl ho
    case destroyDel.inr.intro =>
      rcases get_set_cases hk with ⟨rfl, rfl⟩ | ⟨hne2, hk⟩
      · have ht := ‹s.pool._threads[k]? = some _›
        exact (m4 c2 cl2 k _ j2 hcl' ht hl ho :)
      · exact m4 c2 cl2 k tk j2 hcl' hk hl ho
  · -- m5
    cases hw <;> intro k1 k2 t1 t2 j2 h1 h2 ho1 ho2 <;>
      simp only [State.setThread, State.setClient, State.log] at h1 h2 <;>
      first
      | exact m5 k1 k2 t1 t2 j2 h1 h2 ho1 ho2
      | skip
    case runHand =>
      rcases TPool.onThread_cases h1 with ⟨rfl, a1, ha1, rfl⟩ | ⟨hne1, h1'⟩ <;>
      rcases TPool.onThread_cases h2 with ⟨e2, a2, ha2, rfl⟩ | ⟨hne2, h2'⟩
      · exact e2.symm
      · have := TPoolThr.owes_run_job ho1
        subst this
        exact absurd ho2 (fun ho2 => m4 c cl k2 t2 _ hc h2' (by simp [CPc.lockOf, *]) ho2)
      · have := TPoolThr.owes_run_job ho2
        subst this
        exact absurd ho1 (fun ho1 => m4 c cl k1 t1 _ hc h1' (by simp [CPc.lockOf, *]) ho1)
      · exact m5 k1 k2 t1 t2 j2 h1' h2' ho1 ho2
    case destroyQuit =>
      rcases TPool.onThread_cases h1 with ⟨rfl, a1, ha1, rfl⟩ | ⟨hne1, h1'⟩ <;>
      rcases TPool.onThread_cases h2 with ⟨e2, a2, ha2, rfl⟩ | ⟨hne2, h2'⟩
      · exact e2.symm
      · rw [TPoolThr.owes_quit] at ho1; cases ho1
      · rw [TPoolThr.owes_quit] at ho2; cases ho2
      · exact m5 k1 k2 t1 t2 j2 h1' h2' ho1 ho2
    case destroyDel =>
      have ht := ‹s.pool._threads[_]? = some _›
      rcases get_set_cases h1 with ⟨rfl, rfl⟩ | ⟨hne1, h1'⟩ <;>
      rcases get_set_cases h2 with ⟨e2, rfl⟩ | ⟨hne2, h2'⟩
      · exact e2.symm
      · exact (m5 _ _ _ t2 j2 ht h2' ho1 ho2 :)
      · exact ((m5 _ _ t1 _ j2 h1' ht ho1 ho2).trans e2.symm :)
      · exact m5 k1 k2 t1 t2 j2 h1' h2' ho1 ho2

theorem ranAndUnlocked_cons {w : Nat} {j : TJob} {l : List Event} (e : Event)
    (h : RanAndUnlocked w j l) : RanAndUnlocked w j (e :: l) := by
  obtain ⟨a, b, d, p, rfl⟩ := h
  exact ⟨e :: a, b, d, p, rfl⟩

theorem ranAndUnlocked_append_left {w : Nat} {j : TJob} {l : List Event} (l1 : List Event)
    (h : RanAndUnlocked w j l) : RanAndUnlocked w j (l1 ++ l) := by
  induction l1 with
  | nil => exact h
  | cons e l1 ih => exact ranAndUnlocked_cons e ih

theorem answered_nil (j : TJob) : Answered [] j := by
  intro post c w p del pre h
  simp at h

theorem answered_cons {tr : List Event} {j : TJob} {e : Event} (h : Answered tr j)
    (he : Event.isHandoffOf j e = false) : Answered (e :: tr) j := by
  intro post c w p del pre heq
  cases post with
  | nil =>
    simp at heq
    rw [heq.1] at he
    simp [Event.isHandoffOf] at he
  | cons e1 post =>
    simp at heq
    exact ranAndUnlocked_cons e1 (h post c w p del pre heq.2)

theorem pending_cons {tr : List Event} {j : TJob} {w : Nat} {e : Event} (h : Pending tr j w)
    (he : Event.isHandoffOf j e = false) : Pending (e :: tr) j w := by
  obtain ⟨post, c, p, del, pre, rfl, hn, ha⟩ := h
  refine ⟨e :: post, c, p, del, pre, rfl, ?_, ha⟩
  intro x hx
  rcases List.mem_cons.1 hx with rfl | hx
  · exact he
  · exact hn x hx

theorem returned_cons {tr : List Event} {j : TJob} {w : Nat} {e : Event} (h : Returned tr j w)
    (he : Event.isHandoffOf j e = false) : Returned (e :: tr) j w := by
  obtain ⟨post2, p1, post1, c, p, del, pre, rfl, hn2, hn1, ha⟩ := h
  refine ⟨e :: post2, p1, post1, c, p, del, pre, rfl, ?_, hn1, ha⟩
  intro x hx
  rcases List.mem_cons.1 hx with rfl | hx
  · exact he
  · exact hn2 x hx

theorem pending_of_handoff {tr : List Event} {j : TJob} (c w : Nat) (p : Option Nat) (del : Bool)
    (h : Answered tr j) : Pending (Event.handoff c w j p del :: tr) j w :=
  ⟨[], c, p, del, tr, rfl, ⟨(fun x hx => by cases hx), h⟩⟩

theorem returned_of_pending {tr : List Event} {j : TJob} {w : Nat} (p1 : Option Nat)
    (h : Pending tr j w) : Returned (Event.jobReturned w j p1 :: tr) j w := by
  obtain ⟨post, c, p, del, pre, rfl, hn, ha⟩ := h
  exact ⟨[], p1, post, c, p, del, pre, rfl, ⟨(fun x hx => by cases hx), hn, ha⟩⟩

/-- The first hand-over of `j` in a history is found at one place only. -/
theorem split_at_first_handoff {j : TJob} {L pre post1 pre1 : List Event} {H H1 : Event}
    (hL : NoHandoff j L) (hH1 : Event.isHandoffOf j H1 = true)
    (heq : L ++ H :: pre = post1 ++ H1 :: pre1) :
    (post1 = L ∧ H1 = H ∧ pre1 = pre) ∨ ∃ m, post1 = L ++ H :: m ∧ pre = m ++ H1 :: pre1 := by
  induction L generalizing post1 with
  | nil =>
    cases post1 with
    | nil =>
      simp at heq
      exact Or.inl ⟨rfl, heq.1.symm, heq.2.symm⟩
    | cons x post1 =>
      simp at heq
      right
      exact ⟨post1, by simp [heq.1], heq.2⟩
  | cons y L ih =>
    cases post1 with
    | nil =>
      simp at heq
      have := hL y (List.mem_cons_self _ _)
      rw [heq.1, hH1] at this
      cases this
    | cons x post1 =>
      simp at heq
      have hL1 : NoHandoff j L := fun e he => hL e (List.mem_cons_of_mem _ he)
      rcases ih hL1 heq.2 with ⟨h1, h2, h3⟩ | ⟨m, h1, h2⟩
      · left
        exact ⟨by rw [heq.1, h1], h2, h3⟩
      · right
        exact ⟨m, by rw [heq.1, h1]; rfl, h2⟩

theorem answered_of_returned {tr : List Event} {j : TJob} {w : Nat} (h : Returned tr j w) :
    Answered (Event.jobUnlocked w j :: tr) j := by
  obtain ⟨post2, p1, post1, c, p, del, pre, rfl, hn2, hn1, ha⟩ := h
  intro post c1 w1 p2 del1 pre1 heq
  cases post with
  | nil => simp at heq
  | cons x post =>
    simp only [List.cons_append, List.cons.injEq] at heq
    obtain ⟨rfl, heq⟩ := heq
    have hL : NoHandoff j (post2 ++ Event.jobReturned w j p1 :: post1) := by
      intro e he
      rcases List.mem_append.1 he with he | he
      · exact hn2 e he
      · rcases List.mem_cons.1 he with rfl | he
        · rfl
        · exact hn1 e he
    have heq2 : (post2 ++ Event.jobReturned w j p1 :: post1) ++ Event.handoff c w j p del :: pre
        = post ++ Event.handoff c1 w1 j p2 del1 :: pre1 := by
      rw [← heq]; simp
    rcases split_at_first_handoff hL (by simp [Event.isHandoffOf]) heq2 with
      ⟨h1, h2, h3⟩ | ⟨m, h1, h2⟩
    · cases h2
      subst h1
      exact ⟨[], post2, post1, p1, by simp⟩
    · have := ha m c1 w1 p2 del1 pre1 h2
      subst h1
      have h3 := ranAndUnlocked_append_left
        (Event.jobUnlocked w j :: (post2 ++ Event.jobReturned w j p1 :: post1) ++
          [Event.handoff c w j p del]) this
      simpa using h3

theorem syncSafe_nil : SyncSafe [] := by
  intro post c j pre h
  simp at h

theorem syncSafe_cons {tr : List Event} {e : Event} (h : SyncSafe tr)
    (he : ∀ c j, e = Event.syncReturned c j → Answered tr j) : SyncSafe (e :: tr) := by
  intro post c j pre heq
  cases post with
  | nil =>
    simp at heq
    obtain ⟨rfl, rfl⟩ := heq
    exact he c j rfl
  | cons x post =>
    simp at heq
    exact h post c j pre heq.2

theorem TPoolThr.toRun_owes {t : TPoolThr} {j : TJob} (h : t.toRun = some j) :
    t.owes = some j := by
  unfold TPoolThr.toRun at h
  unfold TPoolThr.owes
  cases hpc : t.pc <;> simp [hpc] at h ⊢ <;> exact h

theorem TPoolThr.toUnlock_owes {t : TPoolThr} {j : TJob} (h : t.toUnlock = some j) :
    t.owes = some j := by
  unfold TPoolThr.toUnlock at h
  unfold TPoolThr.owes
  cases hpc : t.pc <;> simp [hpc] at h ⊢
  exact h

theorem invT_wstep {i : Nat} {s s' : State} {t : TPoolThr} (hG : InvG s) (hM : InvM s)
    (hT : InvT s) (ht : s.pool._threads[i]? = some t) (hw : WStep i s t s') : InvT s' := by
  obtain ⟨t1, t2, t3, t4⟩ := hT
  have hg5 := hG.g5 i t ht
  refine ⟨?_, ?_, ?_, ?_⟩
  · -- t1
    cases hw <;> intro j2 hp <;>
      simp only [State.setThread, State.log] at hp ⊢ <;>
      first
      | exact t1 j2 hp
      | exact answered_cons (t1 j2 hp) rfl
      | skip
    rename_i j hpc hjob
    by_cases hj : j2 = j
    · subst hj
      exact answered_of_returned (t3 i t j2 ht (by simp [TPoolThr.toUnlock, *]))
    · refine answered_cons (t1 j2 ?_) rfl
      rcases hp with hp | hp
      · left
        intro hmem
        exact hp ((TJob.mem_unlock _ _ _).2 ⟨hmem, hj⟩)
      · exact Or.inr hp
  · -- t2
    cases hw <;> intro k tk j2 hk hr <;>
      simp only [State.setThread, State.log, TPool.append_idle_threads] at hk ⊢ <;>
      rcases get_set_cases hk with ⟨rfl, rfl⟩ | ⟨hne, hk'⟩ <;>
      first
      | exact t2 k tk j2 hk' hr
      | exact pending_cons (t2 k tk j2 hk' hr) rfl
      | exact t2 k t j2 ht (by simpa [TPoolThr.toRun, *] using hr)
      | (clear t1 t2 t3 t4 hG hM; simp_all [TPoolThr.toRun, TPoolThr.fresh]; done)
  · -- t3
    cases hw <;> intro k tk j2 hk hr <;>
      simp only [State.setThread, State.log, TPool.append_idle_threads] at hk ⊢ <;>
      rcases get_set_cases hk with ⟨rfl, rfl⟩ | ⟨hne, hk'⟩ <;>
      first
      | exact t3 k tk j2 hk' hr
      | exact returned_cons (t3 k tk j2 hk' hr) rfl
      | (simp [TPoolThr.toUnlock] at hr; done)
      | skip
    rename_i j hpc hjob
    have hj : t._job = some j2 := by simpa [TPoolThr.toUnlock] using hr
    rw [hj] at hjob
    cases hjob
    exact returned_of_pending _ (t2 k t j ht (by simp [TPoolThr.toRun, *]))
  · -- t4
    cases hw <;> simp only [State.setThread, State.log] <;>
      first
      | exact t4
      | exact syncSafe_cons t4 (by intro c j h; cases h)

theorem holder_of_set {clients : List Client} {c : Nat} {cl1 : Client} {j : TJob}
    (hn : cl1.pc.lockOf ≠ some j)
    (h : ∃ (c2 : Nat) (cl2 : Client), (clients.set c cl1)[c2]? = some cl2 ∧ cl2.pc.lockOf = some j) :
    ∃ (c2 : Nat) (cl2 : Client), clients[c2]? = some cl2 ∧ cl2.pc.lockOf = some j := by
  obtain ⟨c2, cl2, h1, h2⟩ := h
  rcases get_set_cases h1 with ⟨rfl, rfl⟩ | ⟨hne, h1'⟩
  · exact absurd h2 hn
  · exact ⟨c2, cl2, h1', h2⟩

theorem prem_of_set {locked : List TJob} {clients : List Client} {c : Nat} {cl1 : Client} {j : TJob}
    (hn : cl1.pc.lockOf ≠ some j)
    (h : j ∉ locked ∨ ∃ (c2 : Nat) (cl2 : Client), (clients.set c cl1)[c2]? = some cl2 ∧
      cl2.pc.lockOf = some j) :
    j ∉ locked ∨ ∃ (c2 : Nat) (cl2 : Client), clients[c2]? = some cl2 ∧ cl2.pc.lockOf = some j :=
  h.imp id (holder_of_set hn)

theorem TPoolThr.toUnlock_pc {t : TPoolThr} {j : TJob} (h : t.toUnlock = some j) :
    t.pc = .unlockJob := by
  unfold TPoolThr.toUnlock at h
  cases hpc : t.pc <;> simp [hpc] at h ⊢

theorem invT_cstep {c : Nat} {s s' : State} {cl : Client} (hG : InvG s) (hM : InvM s)
    (hT : InvT s) (hc : s.clients[c]? = some cl) (hw : CStep c s cl s') : InvT s' := by
  obtain ⟨t1, t2, t3, t4⟩ := hT
  refine ⟨?_, ?_, ?_, ?_⟩
  · -- t1
    cases hw <;> intro j2 hp <;>
      simp only [State.setThread, State.setClient, State.log] at hp ⊢ <;>
      first
      | exact t1 j2 (prem_of_set (by simp [CPc.lockOf]) hp)
      | exact answered_cons (t1 j2 (prem_of_set (by simp [CPc.lockOf]) hp)) rfl
      | skip
    case runLock =>
      rename_i j p del thr hpc hj
      by_cases e : j2 = j
      · subst e
        exact t1 j2 (Or.inl hj)
      · have hp' := hp.imp (fun h hm => h (List.mem_cons_of_mem _ hm)) id
        refine t1 j2 (prem_of_set ?_ hp')
        simpa [CPc.lockOf] using Ne.symm e
    case runHand =>
      rename_i j p del thr hpc
      by_cases e : j2 = j
      · subst e
        exfalso
        rcases hp with hp | ⟨c2, cl2, h1, h2⟩
        · exact hp (hM.m1 c cl j2 hc (by simp [CPc.lockOf, hpc]))
        · rcases get_set_cases h1 with ⟨rfl, rfl⟩ | ⟨hne, h1'⟩
          · simp [CPc.lockOf] at h2
          · exact hne (hM.m3 c2 c cl2 cl j2 h1' hc h2 (by simp [CPc.lockOf, hpc]))
      · refine answered_cons (t1 j2 (prem_of_set (by simp [CPc.lockOf]) hp)) ?_
        simpa [Event.isHandoffOf] using Ne.symm e
    case syncLock =>
      rename_i j rest hpc htodo hj
      by_cases e : j2 = j
      · subst e
        exact t1 j2 (Or.inl hj)
      · have hp' := hp.imp (fun h hm => h (List.mem_cons_of_mem _ hm)) id
        refine t1 j2 (prem_of_set ?_ hp')
        simpa [CPc.lockOf] using Ne.symm e
    case syncUnlock =>
      rename_i j hpc
      by_cases e : j2 = j
      · subst e
        exact answered_cons (t1 j2 (Or.inr ⟨c, cl, hc, by simp [CPc.lockOf, hpc]⟩)) rfl
      · have hp' := hp.imp (fun h hm => h ((TJob.mem_unlock _ _ _).2 ⟨hm, e⟩)) id
        refine answered_cons (t1 j2 (prem_of_set ?_ hp')) rfl
        simp [CPc.lockOf]
  · -- t2
    cases hw <;> intro k tk j2 hk hr <;>
      simp only [State.setThread, State.setClient, State.log] at hk ⊢ <;>
      first
      | exact t2 k tk j2 hk hr
      | exact pending_cons (t2 k tk j2 hk hr) rfl
      | skip
    case runHand =>
      rename_i j p del thr hpc
      rcases TPool.onThread_cases hk with ⟨rfl, a, ha, rfl⟩ | ⟨hne, hk'⟩
      · have := TPoolThr.owes_run_job (TPoolThr.toRun_owes hr)
        subst this
        exact pending_of_handoff c k p del (t1 j2 (Or.inr ⟨c, cl, hc, by simp [CPc.lockOf, hpc]⟩))
      · refine pending_cons (t2 k tk j2 hk' hr) ?_
        have hne2 : j ≠ j2 := by
          rintro rfl
          exact hM.m4 c cl k tk j hc hk' (by simp [CPc.lockOf, hpc]) (TPoolThr.toRun_owes hr)
        simpa [Event.isHandoffOf] using hne2
    case destroyQuit =>
      rcases TPool.onThread_cases hk with ⟨rfl, a, ha, rfl⟩ | ⟨hne, hk'⟩
      · have := TPoolThr.toRun_owes hr
        rw [TPoolThr.owes_quit] at this
        cases this
      · exact t2 k tk j2 hk' hr
    case destroyDel =>
      have ht := ‹s.pool._threads[_]? = some _›
      rcases get_set_cases hk with ⟨rfl, rfl⟩ | ⟨hne, hk'⟩
      · exact (t2 k _ j2 ht hr :)
      · exact t2 k tk j2 hk' hr
  · -- t3
    cases hw <;> intro k tk j2 hk hr <;>
      simp only [State.setThread, State.setClient, State.log] at hk ⊢ <;>
      first
      | exact t3 k tk j2 hk hr
      | exact returned_cons (t3 k tk j2 hk hr) rfl
      | skip
    case runHand =>
      rename_i j p del thr hpc
      rcases TPool.onThread_cases hk with ⟨rfl, a, ha, rfl⟩ | ⟨hne, hk'⟩
      · have h1 := TPoolThr.toUnlock_pc hr
        change a.pc = _ at h1
        have h2 := (hG.g2t c cl k a hc (by simp [CPc.thr, hpc]) ha).2.2
        rw [h1] at h2
        simp [WPc.busy] at h2
      · refine returned_cons (t3 k tk j2 hk' hr) ?_
        have hne2 : j ≠ j2 := by
          rintro rfl
          exact hM.m4 c cl k tk j hc hk' (by simp [CPc.lockOf, hpc]) (TPoolThr.toUnlock_owes hr)
        simpa [Event.isHandoffOf] using hne2
    case destroyQuit =>
      rcases TPool.onThread_cases hk with ⟨rfl, a, ha, rfl⟩ | ⟨hne, hk'⟩
      · have := TPoolThr.toUnlock_owes hr
        rw [TPoolThr.owes_quit] at this
        cases this
      · exact t3 k tk j2 hk' hr
    case destroyDel =>
      have ht := ‹s.pool._threads[_]? = some _›
      rcases get_set_cases hk with ⟨rfl, rfl⟩ | ⟨hne, hk'⟩
      · exact (t3 k _ j2 ht hr :)
      · exact t3 k tk j2 hk' hr
  · -- t4
    cases hw <;> simp only [State.setThread, State.setClient, State.log] <;>
      first
      | exact t4
      | (refine syncSafe_cons t4 ?_; intro c j h; cases h; done)
      | skip
    rename_i j hpc
    refine syncSafe_cons t4 ?_
    intro c1 j1 h
    cases h
    exact t1 j (Or.inr ⟨c, cl, hc, by simp [CPc.lockOf, hpc]⟩)

theorem worker_lt_workerBound {tr : List Event} {e : Event} (h : e ∈ tr) :
    e.worker < workerBound tr := by
  induction tr with
  | nil => cases h
  | cons x tr ih =>
    unfold workerBound
    rcases List.mem_cons.1 h with rfl | h
    · exact lt_of_lt_of_le (Nat.lt_succ_self _) (le_max_left _ _)
    · exact lt_of_lt_of_le (ih h) (le_max_right _ _)

theorem sum_handedTo (tr : List Event) (j : TJob) (N : Nat) :
    (Finset.range N).sum (fun w => handedTo tr w j) =
      tr.countP (fun e => Event.isHandoffOf j e && decide (e.worker < N)) := by
  induction tr with
  | nil => simp [handedTo]
  | cons e tr ih =>
    simp only [handedTo, List.countP_cons, Finset.sum_add_distrib] at ih ⊢
    rw [ih]
    congr 1
    cases e <;> simp [Event.isHandoffTo, Event.isHandoffOf, Event.worker]
    rename_i c w j1 p del
    by_cases hj : j1 = j
    · subst hj
      simp only [and_true, Finset.sum_boole, Nat.cast_id]
      rw [Finset.filter_eq]
      by_cases hw : w < N <;> simp [hw]
    · simp [hj]

theorem sum_returnedBy (tr : List Event) (j : TJob) (N : Nat) :
    (Finset.range N).sum (fun w => returnedBy tr w j) =
      tr.countP (fun e => Event.isReturnOf j e && decide (e.worker < N)) := by
  induction tr with
  | nil => simp [returnedBy]
  | cons e tr ih =>
    simp only [returnedBy, List.countP_cons, Finset.sum_add_distrib] at ih ⊢
    rw [ih]
    congr 1
    cases e <;> simp [Event.isReturnBy, Event.isReturnOf, Event.worker]
    rename_i w j1 p
    by_cases hj : j1 = j
    · subst hj
      simp only [and_true, Finset.sum_boole, Nat.cast_id]
      rw [Finset.filter_eq]
      by_cases hw : w < N <;> simp [hw]
    · simp [hj]

theorem countP_and_bound (tr : List Event) (p : Event → Bool) :
    tr.countP (fun e => p e && decide (e.worker < workerBound tr)) = tr.countP p := by
  apply List.countP_congr
  intro e he
  simp [worker_lt_workerBound he]

/-- A job that every pool thread ran as often as the thread was handed it was run as
often as it was handed over. -/
theorem runCount_eq_handoffCount (tr : List Event) (j : TJob)
    (h : ∀ w, handedTo tr w j = returnedBy tr w j) : runCount tr j = handoffCount tr j := by
  unfold runCount handoffCount
  rw [← countP_and_bound tr (Event.isReturnOf j), ← countP_and_bound tr (Event.isHandoffOf j),
    ← sum_handedTo, ← sum_returnedBy]
  exact Finset.sum_congr rfl (fun w _ => (h w).symm)

theorem balanced_cons {tr : List Event} {w : Nat} {e : Event} (h : Balanced tr w)
    (he : e.notOf w) : Balanced (e :: tr) w := by
  intro j
  have := h j
  simp only [handedTo, returnedBy, List.countP_cons] at this ⊢
  simp [(he j).1, (he j).2, this]

theorem oneAhead_cons {tr : List Event} {w : Nat} {j : TJob} {e : Event} (h : OneAhead tr w j)
    (he : e.notOf w) : OneAhead (e :: tr) w j := by
  obtain ⟨h1, h2⟩ := h
  constructor
  · simp only [handedTo, returnedBy, List.countP_cons] at h1 ⊢
    simp [(he j).1, (he j).2, h1]
  · intro j2 hj2
    have := h2 j2 hj2
    simp only [handedTo, returnedBy, List.countP_cons] at this ⊢
    simp [(he j2).1, (he j2).2, this]

theorem oneAhead_of_handoff {tr : List Event} {w : Nat} (c : Nat) (j : TJob) (p : Option Nat)
    (del : Bool) (h : Balanced tr w) : OneAhead (Event.handoff c w j p del :: tr) w j := by
  constructor
  · have := h j
    simp only [handedTo, returnedBy, List.countP_cons] at this ⊢
    simp [Event.isHandoffTo, Event.isReturnBy, this]
  · intro j2 hj2
    have := h j2
    simp only [handedTo, returnedBy, List.countP_cons] at this ⊢
    simp [Event.isHandoffTo, Event.isReturnBy, this, Ne.symm hj2]

theorem balanced_of_return {tr : List Event} {w : Nat} {j : TJob} (p : Option Nat)
    (h : OneAhead tr w j) : Balanced (Event.jobReturned w j p :: tr) w := by
  intro j2
  by_cases hj : j2 = j
  · subst hj
    have := h.1
    simp only [handedTo, returnedBy, List.countP_cons] at this ⊢
    simp [Event.isHandoffTo, Event.isReturnBy, this]
  · have := h.2 j2 hj
    simp only [handedTo, returnedBy, List.countP_cons] at this ⊢
    simp [Event.isHandoffTo, Event.isReturnBy, this, Ne.symm hj]

theorem notOf_handoff {c w k : Nat} {j : TJob} {p : Option Nat} {del : Bool} (h : k ≠ w) :
    (Event.handoff c w j p del).notOf k := by
  intro j2
  simp [Event.isHandoffTo, Event.isReturnBy, Ne.symm h]

theorem notOf_jobReturned {w k : Nat} {j : TJob} {p : Option Nat} (h : k ≠ w) :
    (Event.jobReturned w j p).notOf k := by
  intro j2
  simp [Event.isHandoffTo, Event.isReturnBy, Ne.symm h]

theorem notOf_jobUnlocked (w k : Nat) (j : TJob) : (Event.jobUnlocked w j).notOf k :=
  fun _ => ⟨rfl, rfl⟩

theorem notOf_jobDeleted (w k : Nat) (j : TJob) : (Event.jobDeleted w j).notOf k :=
  fun _ => ⟨rfl, rfl⟩

theorem notOf_syncReturned (c k : Nat) (j : TJob) : (Event.syncReturned c j).notOf k :=
  fun _ => ⟨rfl, rfl⟩

theorem notOf_syncAllReturned (c k : Nat) : (Event.syncAllReturned c).notOf k :=
  fun _ => ⟨rfl, rfl⟩

theorem syncAllSafe_nil : SyncAllSafe [] := by
  intro post c pre h
  simp at h

theorem syncAllSafe_cons {tr : List Event} {e : Event} (h : SyncAllSafe tr)
    (he : ∀ c, e = Event.syncAllReturned c → ∀ j, runCount tr j = handoffCount tr j) :
    SyncAllSafe (e :: tr) := by
  intro post c pre heq
  cases post with
  | nil =>
    simp at heq
    obtain ⟨rfl, rfl⟩ := heq
    exact he c rfl
  | cons x post =>
    simp at heq
    exact h post c pre heq.2

theorem set_eq_none {α : Type} {l : List α} {i k : Nat} {a : α} (h : (l.set i a)[k]? = none) :
    l[k]? = none := by
  simpa using h

theorem invB_wstep {i : Nat} {s s' : State} {t : TPoolThr} (hG : InvG s)
    (hB : InvB s) (ht : s.pool._threads[i]? = some t) (hw : WStep i s t s') : InvB s' := by
  obtain ⟨b1, b2, b3, b4, b5⟩ := hB
  have hg5 := hG.g5 i t ht
  have hg6 := hG.g6 i t ht
  have hb2 := b2 i t ht
  have hb1 := b1 i t
  refine ⟨?_, ?_, ?_, ?_, ?_⟩
  · -- b1
    cases hw <;> intro k tk j2 hk hr <;>
      simp only [State.setThread, State.log, TPool.append_idle_threads] at hk ⊢ <;>
      rcases get_set_cases hk with ⟨rfl, rfl⟩ | ⟨hne, hk'⟩ <;>
      first
      | exact b1 k tk j2 hk' hr
      | exact oneAhead_cons (b1 k tk j2 hk' hr) (notOf_jobReturned hne)
      | exact oneAhead_cons (b1 k tk j2 hk' hr) (notOf_jobUnlocked _ _ _)
      | exact oneAhead_cons (b1 k tk j2 hk' hr) (notOf_jobDeleted _ _ _)
      | exact b1 k t j2 ht (by simpa [TPoolThr.toRun, *] using hr)
      | (clear b1 b2 b3 b4 b5 hG hb1 hb2; simp_all [TPoolThr.toRun, TPoolThr.fresh]; done)
  · -- b2
    cases hw <;> intro k tk hk hp <;>
      simp only [State.setThread, State.log, TPool.append_idle_threads,
        TPool.mem_append_idle] at hk hp ⊢ <;>
      rcases get_set_cases hk with ⟨rfl, rfl⟩ | ⟨hne, hk'⟩ <;>
      first
      | exact b2 k tk hk' hp
      | exact b2 k tk hk' (by simpa [hne] using hp)
      | exact balanced_cons (b2 k tk hk' hp) (notOf_jobReturned hne)
      | exact balanced_cons (b2 k tk hk' hp) (notOf_jobUnlocked _ _ _)
      | exact balanced_cons (b2 k tk hk' hp) (notOf_jobDeleted _ _ _)
      | exact hb2 (by clear b1 b2 b3 b4 b5 hG hb1 hb2; simp_all [TPoolThr.fresh, WPc.afterRun]; done)
      | skip
    rename_i j hpc hjob
    exact balanced_of_return _ (hb1 j ht (by simp [TPoolThr.toRun, hpc, hjob]))
  · -- b3
    cases hw <;> intro c cl k hcl hthr <;>
      simp only [State.setThread, State.log] at hcl ⊢ <;>
      first
      | exact b3 c cl k hcl hthr
      | exact balanced_cons (b3 c cl k hcl hthr) (notOf_jobUnlocked _ _ _)
      | exact balanced_cons (b3 c cl k hcl hthr) (notOf_jobDeleted _ _ _)
      | skip
    rename_i j hpc hjob
    refine balanced_cons (b3 c cl k hcl hthr) (notOf_jobReturned ?_)
    rintro rfl
    have := (hG.g2t c cl k t hcl hthr ht).2.2
    rw [hpc] at this
    simp [WPc.busy] at this
  · -- b4
    cases hw <;> intro k hk <;>
      simp only [State.setThread, State.log, TPool.append_idle_threads] at hk ⊢ <;>
      have hk' := set_eq_none hk <;>
      first
      | exact b4 k hk'
      | exact balanced_cons (b4 k hk') (notOf_jobUnlocked _ _ _)
      | exact balanced_cons (b4 k hk') (notOf_jobDeleted _ _ _)
      | skip
    refine balanced_cons (b4 k hk') (notOf_jobReturned ?_)
    rintro rfl
    rw [ht] at hk'
    cases hk'
  · -- b5
    cases hw <;> simp only [State.setThread, State.log] <;>
      first
      | exact b5
      | exact syncAllSafe_cons b5 (by intro c h; cases h)

theorem mem_of_nodup_full {l : List Nat} {n w : Nat} (hnd : l.Nodup) (hb : ∀ i ∈ l, i < n)
    (hlen : n ≤ l.length) (hw : w < n) : w ∈ l := by
  have hsub : l.toFinset ⊆ Finset.range n :=
    fun i hi => Finset.mem_range.2 (hb i (List.mem_toFinset.1 hi))
  have hcard : (Finset.range n).card ≤ l.toFinset.card := by
    rw [List.toFinset_card_of_nodup hnd]; simpa using hlen
  have heq := Finset.eq_of_subset_of_card_le hsub hcard
  have hw' : w ∈ l.toFinset := by rw [heq]; exact Finset.mem_range.2 hw
  exact List.mem_toFinset.1 hw'

theorem length_le_of_nodup_bound {l : List Nat} {n : Nat} (hnd : l.Nodup) (hb : ∀ i ∈ l, i < n) :
    l.length ≤ n := by
  have hsub : l.toFinset ⊆ Finset.range n :=
    fun i hi => Finset.mem_range.2 (hb i (List.mem_toFinset.1 hi))
  have := Finset.card_le_card hsub
  rwa [List.toFinset_card_of_nodup hnd, Finset.card_range] at this

theorem TPool.onThread_none {i k : Nat} {f : TPoolThr → TPoolThr} {p : TPool}
    (h : (p.onThread i f)._threads[k]? = none) : p._threads[k]? = none := by
  rw [List.getElem?_eq_none_iff] at h ⊢
  rwa [TPool.onThread_length] at h

theorem WPc.busy_of_afterRun {pc : WPc} (h : pc.afterRun = true) : pc.busy = true := by
  cases pc <;> simp [WPc.afterRun, WPc.busy] at h ⊢

theorem invB_cstep {c : Nat} {s s' : State} {cl : Client} (h0 : Inv0 s) (hG : InvG s)
    (hB : InvB s) (hc : s.clients[c]? = some cl) (hw : CStep c s cl s') : InvB s' := by
  obtain ⟨b1, b2, b3, b4, b5⟩ := hB
  refine ⟨?_, ?_, ?_, ?_, ?_⟩
  · -- b1
    cases hw <;> intro k tk j2 hk hr <;>
      simp only [State.setThread, State.setClient, State.log] at hk ⊢ <;>
      first
      | exact b1 k tk j2 hk hr
      | exact oneAhead_cons (b1 k tk j2 hk hr) (notOf_syncReturned _ _ _)
      | exact oneAhead_cons (b1 k tk j2 hk hr) (notOf_syncAllReturned _ _)
      | skip
    case runHand =>
      rename_i j p del thr hpc
      rcases TPool.onThread_cases hk with ⟨rfl, a, ha, rfl⟩ | ⟨hne, hk'⟩
      · have := TPoolThr.owes_run_job (TPoolThr.toRun_owes hr)
        subst this
        exact oneAhead_of_handoff c j2 p del (b3 c cl k hc (by simp [CPc.thr, hpc]))
      · exact oneAhead_cons (b1 k tk j2 hk' hr) (notOf_handoff hne)
    case destroyQuit =>
      rcases TPool.onThread_cases hk with ⟨rfl, a, ha, rfl⟩ | ⟨hne, hk'⟩
      · have := TPoolThr.toRun_owes hr
        rw [TPoolThr.owes_quit] at this
        cases this
      · exact b1 k tk j2 hk' hr
    case destroyDel =>
      have ht := ‹s.pool._threads[_]? = some _›
      rcases get_set_cases hk with ⟨rfl, rfl⟩ | ⟨hne, hk'⟩
      · exact (b1 k _ j2 ht hr :)
      · exact b1 k tk j2 hk' hr
  · -- b2
    cases hw <;> intro k tk hk hp <;>
      simp only [State.setThread, State.setClient, State.log, TPool.onThread_idle] at hk hp ⊢ <;>
      first
      | exact b2 k tk hk hp
      | exact balanced_cons (b2 k tk hk hp) (notOf_syncReturned _ _ _)
      | exact balanced_cons (b2 k tk hk hp) (notOf_syncAllReturned _ _)
      | skip
    case runGet =>
      have hi := ‹s.pool._idle_threads = _›
      exact b2 k tk hk (hp.imp (tail_mem_of_eq_cons hi) id)
    case runHand =>
      rename_i j p del thr hpc
      rcases TPool.onThread_cases hk with ⟨rfl, a, ha, rfl⟩ | ⟨hne, hk'⟩
      · exfalso
        have h1 := (hG.g2 c cl k hc (by simp [CPc.thr, hpc])).1
        have h2 := hG.g2t c cl k a hc (by simp [CPc.thr, hpc]) ha
        rcases hp with hp | hp | hp
        · exact h1 hp
        · rw [TPoolThr.fresh_run_job, h2.2.1] at hp
          cases hp
        · have := WPc.busy_of_afterRun hp
          change a.pc.busy = true at this
          rw [h2.2.2] at this
          cases this
      · exact balanced_cons (b2 k tk hk' hp) (notOf_handoff hne)
    case destroyQuit =>
      rcases TPool.onThread_cases hk with ⟨rfl, a, ha, rfl⟩ | ⟨hne, hk'⟩
      · refine b2 k a ha ?_
        rcases hp with hp | hp | hp
        · exact Or.inl hp
        · exact Or.inr (Or.inl (TPoolThr.fresh_quit a hp))
        · exact Or.inr (Or.inr hp)
      · exact b2 k tk hk' hp
    case destroyDel =>
      have ht := ‹s.pool._threads[_]? = some _›
      rcases get_set_cases hk with ⟨rfl, rfl⟩ | ⟨hne, hk'⟩
      · exact (b2 k _ ht hp :)
      · exact b2 k tk hk' hp
  · -- b3
    cases hw <;> intro c2 cl2 k hcl hthr <;>
      simp only [State.setThread, State.setClient, State.log] at hcl ⊢ <;>
      rcases get_set_cases hcl with ⟨rfl, rfl⟩ | ⟨hne, hcl'⟩ <;>
      first
      | exact b3 c2 cl2 k hcl' hthr
      | exact balanced_cons (b3 c2 cl2 k hcl' hthr) (notOf_syncReturned _ _ _)
      | exact balanced_cons (b3 c2 cl2 k hcl' hthr) (notOf_syncAllReturned _ _)
      | (simp [CPc.thr] at hthr; done)
      | skip
    case runGet.inl.intro =>
      have hi := ‹s.pool._idle_threads = _›
      simp [CPc.thr] at hthr
      subst hthr
      rename_i j p del rest thr idle hpc htodo hidle
      cases hk : s.pool._threads[thr]? with
      | none => exact b4 thr hk
      | some tk => exact b2 thr tk hk (Or.inl (head_mem_of_eq_cons hi))
    case runLock.inl.intro =>
      rename_i j p del thr hpc hj
      simp [CPc.thr] at hthr
      subst hthr
      exact b3 c2 cl thr hc (by simp [CPc.thr, hpc])
    case runHand.inr.intro =>
      rename_i j p del thr hpc
      refine balanced_cons (b3 c2 cl2 k hcl' hthr) (notOf_handoff ?_)
      rintro rfl
      exact hne (hG.g3 c2 c cl2 cl k hcl' hc hthr (by simp [CPc.thr, hpc]))
  · -- b4
    cases hw <;> intro k hk <;>
      simp only [State.setThread, State.setClient, State.log] at hk ⊢ <;>
      first
      | exact b4 k hk
      | exact b4 k (TPool.onThread_none hk)
      | exact b4 k (set_eq_none hk)
      | exact balanced_cons (b4 k hk) (notOf_syncReturned _ _ _)
      | exact balanced_cons (b4 k hk) (notOf_syncAllReturned _ _)
      | skip
    rename_i j p del thr hpc
    refine balanced_cons (b4 k (TPool.onThread_none hk)) (notOf_handoff ?_)
    rintro rfl
    have h1 := (hG.g2 c cl k hc (by simp [CPc.thr, hpc])).2
    rw [← h0.len] at h1
    rw [List.getElem?_eq_none_iff, TPool.onThread_length] at hk
    omega
  · -- b5
    cases hw <;> simp only [State.setThread, State.setClient, State.log] <;>
      first
      | exact b5
      | (refine syncAllSafe_cons b5 ?_; intro c h; cases h; done)
      | skip
    rename_i rest hpc htodo hfull
    refine syncAllSafe_cons b5 ?_
    intro c1 _ j
    apply runCount_eq_handoffCount
    intro w
    cases hk : s.pool._threads[w]? with
    | none => exact b4 w hk j
    | some tk =>
      have hw : w < s.pool._max_parallel := by
        rw [← h0.len]; exact (List.getElem?_eq_some.1 hk).1
      exact b2 w tk hk (Or.inl (mem_of_nodup_full h0.nodup h0.bound (not_lt.1 hfull) hw)) j

theorem init_thread {max_p : Nat} {progs : List (List Call)} {i : Nat} {t : TPoolThr}
    (h : (State.init max_p progs).pool._threads[i]? = some t) :
    t = TThread.create true true (TPoolThr.new (Int.ofNat i)) := by
  simp only [State.init, TPool.new, List.getElem?_map] at h
  cases hr : (List.range max_p)[i]? with
  | none => rw [hr] at h; cases h
  | some k =>
    rw [hr] at h
    have hk := List.getElem?_eq_some.1 hr
    obtain ⟨hlt, hk⟩ := hk
    simp at hk
    subst hk
    simpa using h.symm

theorem init_client {max_p : Nat} {progs : List (List Call)} {c : Nat} {cl : Client}
    (h : (State.init max_p progs).clients[c]? = some cl) : cl.pc = .ready := by
  simp only [State.init, List.getElem?_map] at h
  cases hr : progs[c]? with
  | none => rw [hr] at h; cases h
  | some k =>
    rw [hr] at h
    simp at h
    rw [← h]

theorem inv_init (max_p : Nat) (progs : List (List Call)) : Inv (State.init max_p progs) := by
  refine ⟨inv0_init max_p progs, ⟨?_, ?_, ?_, ?_, ?_, ?_, ?_⟩, ⟨?_, ?_, ?_, ?_, ?_⟩,
    ⟨?_, ?_, ?_, ?_⟩, ⟨?_, ?_, ?_, ?_, ?_⟩⟩
  · intro i t _ hi
    simp [State.init, TPool.new] at hi
  · intro c cl i hc ht
    rw [init_client hc] at ht
    cases ht
  · intro c cl i t hc ht
    rw [init_client hc] at ht
    cases ht
  · intro c1 c2 cl1 cl2 i h1 _ ht
    rw [init_client h1] at ht
    cases ht
  · intro i t _ _
    simp [State.init, TPool.new]
  · intro i t h _
    rw [init_thread h]
    rfl
  · intro i t h hpc
    rw [init_thread h] at hpc
    cases hpc
  · intro c cl j hc hl
    rw [init_client hc] at hl
    cases hl
  · intro i t j h ho
    rw [init_thread h] at ho
    cases ho
  · intro c1 c2 cl1 cl2 j h1 _ hl
    rw [init_client h1] at hl
    cases hl
  · intro c cl i t j hc _ hl
    rw [init_client hc] at hl
    cases hl
  · intro i1 i2 t1 t2 j h1 _ ho
    rw [init_thread h1] at ho
    cases ho
  · intro j _
    exact answered_nil j
  · intro i t j h ho
    rw [init_thread h] at ho
    cases ho
  · intro i t j h ho
    rw [init_thread h] at ho
    cases ho
  · exact syncSafe_nil
  · intro i t j h ho
    rw [init_thread h] at ho
    cases ho
  · intro i t _ _ j
    rfl
  · intro c cl i _ _ j
    rfl
  · intro i _ j
    rfl
  · exact syncAllSafe_nil

theorem inv_step {t : Tid} {s s' : State} (h : Inv s) (hs : step t s = some s') : Inv s' := by
  obtain ⟨h0, hG, hM, hT, hB⟩ := h
  cases t with
  | worker i =>
    obtain ⟨th, hth, _, hw⟩ := workerStep_sound hs
    exact ⟨inv0_worker i s s' h0 hs, invG_wstep hG hth hw, invM_wstep hG hM hth hw,
      invT_wstep hG hM hT hth hw, invB_wstep hG hB hth hw⟩
  | client c =>
    obtain ⟨cl, hcl, hw⟩ := clientStep_sound hs
    exact ⟨inv0_client c s s' h0 hs, invG_cstep h0 hG hcl hw, invM_cstep hM hcl hw,
      invT_cstep hG hM hT hcl hw, invB_cstep h0 hG hB hcl hw⟩

theorem inv_exec {sched : List Tid} {s s' : State} (h : Inv s) (hs : exec sched s = some s') :
    Inv s' := by
  induction sched generalizing s with
  | nil =>
    simp [exec] at hs
    subst hs
    exact h
  | cons t sched ih =>
    simp only [exec] at hs
    cases hst : step t s with
    | none => rw [hst] at hs; cases hs
    | some s1 =>
      rw [hst] at hs
      exact ih (inv_step h hst) hs

theorem inv_reachable {max_p : Nat} {progs : List (List Call)} {s : State}
    (h : Reachable (State.init max_p progs) s) : Inv s := by
  obtain ⟨sched, hs⟩ := h
  exact inv_exec (inv_init max_p progs) hs

theorem step_max_parallel {t : Tid} {s s' : State} (hs : step t s = some s') :
    s'.pool._max_parallel = s.pool._max_parallel := by
  cases t with
  | worker i =>
    obtain ⟨th, hth, _, hw⟩ := workerStep_sound hs
    cases hw <;> simp [TPool.append_idle_max]
  | client c =>
    obtain ⟨cl, hcl, hw⟩ := clientStep_sound hs
    cases hw <;> simp [TPool.onThread_max]

theorem exec_max_parallel {sched : List Tid} {s s' : State} (hs : exec sched s = some s') :
    s'.pool._max_parallel = s.pool._max_parallel := by
  induction sched generalizing s with
  | nil =>
    simp [exec] at hs
    subst hs
    rfl
  | cons t sched ih =>
    simp only [exec] at hs
    cases hst : step t s with
    | none => rw [hst] at hs; cases hs
    | some s1 =>
      rw [hst] at hs
      rw [ih hs, step_max_parallel hst]

theorem invStart_init (max_p : Nat) (progs : List (List Call)) :
    InvStart (State.init max_p progs) := by
  intro i t h
  have ht := init_thread h
  subst ht
  refine ⟨rfl, rfl, ?_⟩
  simp [State.init, TPool.new, TThread.create]

theorem invStart_wstep {i : Nat} {s s' : State} {t : TPoolThr} (hS : InvStart s)
    (ht : s.pool._threads[i]? = some t) (hw : WStep i s t s') : InvStart s' := by
  have hi := hS i t ht
  cases hw <;> intro k tk hk <;>
    simp only [State.setThread, State.log, TPool.append_idle_threads, TPool.mem_append_idle] at hk ⊢ <;>
    rcases get_set_cases hk with ⟨rfl, rfl⟩ | ⟨hne, hk'⟩ <;>
    first
    | exact hS k tk hk'
    | (have h5 := hS k tk hk'; simp [hne, h5]; done)
    | (clear hS; simp_all; done)

theorem invStart_exec {sched : List Tid} {s s' : State} (hw : ∀ t ∈ sched, t.isWorker = true)
    (h : InvStart s) (hs : exec sched s = some s') : InvStart s' := by
  induction sched generalizing s with
  | nil =>
    simp [exec] at hs
    subst hs
    exact h
  | cons t sched ih =>
    simp only [exec] at hs
    cases hst : step t s with
    | none => rw [hst] at hs; cases hs
    | some s1 =>
      rw [hst] at hs
      refine ih (fun x hx => hw x (List.mem_cons_of_mem _ hx)) ?_ hs
      have htw := hw t (List.mem_cons_self _ _)
      cases t with
      | client c => cases htw
      | worker i =>
        obtain ⟨th, hth, _, hws⟩ := workerStep_sound hst
        exact invStart_wstep h hth hws

theorem length_ge_of_forall_mem {l : List Nat} {n : Nat} (h : ∀ i, i < n → i ∈ l) :
    n ≤ l.length := by
  have hsub : Finset.range n ⊆ l.toFinset :=
    fun i hi => List.mem_toFinset.2 (h i (Finset.mem_range.1 hi))
  have := Finset.card_le_card hsub
  rw [Finset.card_range] at this
  exact le_trans this (List.toFinset_card_le l)

theorem TPool.drain_eq (n : Nat) (pool : TPool) (h : pool._idle_threads.length ≤ n) :
    pool.drain n = pool._idle_threads := by
  induction n generalizing pool with
  | zero =>
    have : pool._idle_threads = [] := List.length_eq_zero.1 (Nat.le_zero.1 h)
    simp [TPool.drain, this]
  | succ n ih =>
    unfold TPool.drain TPool.get_idle
    cases hidle : pool._idle_threads with
    | nil => rfl
    | cons t rest =>
      simp only
      rw [ih]
      rw [hidle] at h
      simpa using h

theorem TPool.foldl_append_idle (ws : List Nat) (pool : TPool) (hnd : ws.Nodup)
    (hdis : ∀ w ∈ ws, w ∉ pool._idle_threads) :
    (ws.foldl (fun p w => p.append_idle w) pool)._idle_threads = pool._idle_threads ++ ws := by
  induction ws generalizing pool with
  | nil => simp
  | cons w ws ih =>
    simp only [List.foldl_cons]
    have hw : w ∉ pool._idle_threads := hdis w (List.mem_cons_self _ _)
    have h1 : (pool.append_idle w)._idle_threads = pool._idle_threads ++ [w] := by
      simp [TPool.append_idle, hw]
    rw [ih (pool.append_idle w) (List.nodup_cons.1 hnd).2, h1]
    · simp
    · intro x hx
      rw [h1]
      intro hmem
      rcases List.mem_append.1 hmem with hmem | hmem
      · exact hdis x (List.mem_cons_of_mem _ hx) hmem
      · simp at hmem
        subst hmem
        exact (List.nodup_cons.1 hnd).1 hx

/-! ## The claims -/

/-- C1: in every interleaving, when `TPool::sync( j )` returns, every pool thread
that was handed `j` by a `TPool::run` that returned before has since returned from
`j->run` and, after that, unlocked `j`: in the history the return of `sync( j )` is
preceded, after the hand-over of `j` to thread `w`, by the return of `j->run` in `w` and
then by the `unlock` of `w`. -/
theorem sync_returns_only_after_job_ran (max_p : Nat) (progs : List (List Call)) (s : State)
    (hr : Reachable (State.init max_p progs) s)
    (post mid pre : List Event) (c c1 w : Nat) (j : TJob) (p : Option Nat) (del : Bool)
    (htr : s.trace = post ++ Event.syncReturned c j :: (mid ++ Event.handoff c1 w j p del :: pre)) :
    RanAndUnlocked w j mid :=
  (inv_reachable hr).iT.t4 post c j _ htr mid c1 w p del pre rfl

/-- Witness of C1: the example run, in which `sync( jobA )` returns after the job ran. -/
theorem sync_returns_only_after_job_ran_witness :
    RanAndUnlocked 0 jobA [Event.jobUnlocked 0 jobA, Event.jobReturned 0 jobA (some 5)] :=
  sync_returns_only_after_job_ran 1 demoProgs demoSynced ⟨demoSchedSync, by rfl⟩
    [] [Event.jobUnlocked 0 jobA, Event.jobReturned 0 jobA (some 5)] [] 0 0 0 jobA (some 5) false
    (by rfl)

/-- C2: in every interleaving, for a pool of any capacity and any number of jobs, when
`TPool::sync_all` returns, every job has been run to the end exactly as often as it was
handed to a pool thread by a `TPool::run` that returned before: no job submitted before
is unfinished, and a job submitted once was run exactly once. -/
theorem sync_all_returns_only_after_all_jobs_ran (max_p : Nat) (progs : List (List Call))
    (s : State) (hr : Reachable (State.init max_p progs) s)
    (post pre : List Event) (c : Nat)
    (htr : s.trace = post ++ Event.syncAllReturned c :: pre) (j : TJob) :
    runCount pre j = handoffCount pre j ∧ (handoffCount pre j = 1 → runCount pre j = 1) := by
  have h := (inv_reachable hr).iB.b5 post c pre htr j
  exact ⟨h, fun h1 => h.trans h1⟩

/-- Witness of C2: the example run, three jobs on a pool of one thread; `jobC` was run
once when `sync_all` returned. -/
theorem sync_all_returns_only_after_all_jobs_ran_witness :
    runCount demoHistory jobC = handoffCount demoHistory jobC ∧
      (handoffCount demoHistory jobC = 1 → runCount demoHistory jobC = 1) :=
  sync_all_returns_only_after_all_jobs_ran 1 demoProgs demoDrained ⟨demoSchedAll, by rfl⟩
    [] demoHistory 0 (by rfl) jobC

/-- C3, as stated, fails: when the constructor of a pool of capacity `1` returns (no
pool thread has made a step yet) the idle list is empty, not of size `1`. -/
theorem idle_queue_empty_at_constructor_return :
    ¬ (∀ capacity, 1 ≤ capacity → ∀ progs,
      (State.init capacity progs).pool._idle_threads.length = capacity) := by
  intro h
  have h1 := h 1 (le_refl 1) []
  revert h1
  decide

/-- C3, amended: the constructor itself leaves the idle list empty; in every state
reached from there by steps of the pool threads alone the idle list holds at most
`capacity` threads, and it holds exactly `capacity` threads if and only if every pool
thread has made its first call of `append_idle` and waits for work. -/
theorem idle_queue_after_constructor (capacity : Nat) (progs : List (List Call))
    (sched : List Tid) (s : State) (hw : ∀ t ∈ sched, t.isWorker = true)
    (hs : exec sched (State.init capacity progs) = some s) :
    (State.init capacity progs).pool._idle_threads = [] ∧
    s.pool._idle_threads.length ≤ capacity ∧
    (s.pool._idle_threads.length = capacity ↔
      ∀ i, i < capacity → ∃ t, s.pool._threads[i]? = some t ∧ t.pc = WPc.waitWork) := by
  have h0 : Inv0 s := (inv_exec (inv_init capacity progs) hs).i0
  have hS : InvStart s := invStart_exec hw (invStart_init capacity progs) hs
  have hmax : s.pool._max_parallel = capacity := exec_max_parallel hs
  have hlen := h0.len
  have hbd := h0.bound
  rw [hmax] at hlen hbd
  refine ⟨rfl, length_le_of_nodup_bound h0.nodup hbd, ?_, ?_⟩
  · intro hfull i hi
    have hex : i < s.pool._threads.length := by rw [hlen]; exact hi
    refine ⟨s.pool._threads[i], List.getElem?_eq_getElem hex, ?_⟩
    exact ((hS i _ (List.getElem?_eq_getElem hex)).2.2).1
      (mem_of_nodup_full h0.nodup hbd (le_of_eq hfull.symm) hi)
  · intro hall
    refine le_antisymm (length_le_of_nodup_bound h0.nodup hbd) (length_ge_of_forall_mem ?_)
    intro i hi
    obtain ⟨t, ht, hpc⟩ := hall i hi
    exact ((hS i t ht).2.2).2 hpc

/-- Witness of C3, amended: after the three first steps of the only pool thread of the
example the idle list has size `1`. -/
theorem idle_queue_after_constructor_witness :
    (State.init 1 demoProgs).pool._idle_threads = [] ∧
    demoIdle.pool._idle_threads.length ≤ 1 ∧
    (demoIdle.pool._idle_threads.length = 1 ↔
      ∀ i, i < 1 → ∃ t, demoIdle.pool._threads[i]? = some t ∧ t.pc = WPc.waitWork) :=
  idle_queue_after_constructor 1 demoProgs demoStart demoIdle (by decide) (by rfl)

theorem get_set_self {α : Type} {l : List α} {i : Nat} {a b : α} (h : l[i]? = some a) :
    (l.set i b)[i]? = some b := by
  rw [List.getElem?_set]
  simp [(List.getElem?_eq_some.1 h).1]

/-- C4: in a reachable state whose idle list is `w :: idle`, a user thread that calls
`TPool::run( j, p, del )` with a job `j` and is not interfered with first takes `w` from
the idle list (nothing else changes), then locks `j` (the slot of `w` is still as
before), then installs `( j, p, del )` in the slot of `w`. When it returns, `j` is
locked, the slot of `w` holds `j`, `p` and `del`, `w` is not in the idle list, and the
slot of no other thread has changed. The call returns when the mutex of `j` is free;
when it is held the call blocks at `job->lock()`. -/
theorem run_hands_job_to_head_of_idle_queue (max_p : Nat) (progs : List (List Call)) (s : State)
    (hr : Reachable (State.init max_p progs) s) (c : Nat) (cl : Client) (j : TJob)
    (p : Option Nat) (del : Bool) (rest : List Call) (w : Nat) (idle : List Nat)
    (hc : s.clients[c]? = some cl) (hpc : cl.pc = CPc.ready)
    (htodo : cl.todo = Call.run (some j) p del :: rest)
    (hidle : s.pool._idle_threads = w :: idle) :
    ∃ s1 t, step (Tid.client c) s = some s1 ∧ s.pool._threads[w]? = some t ∧
      s1.pool._idle_threads = idle ∧ s1.locked = s.locked ∧
      s1.pool._threads = s.pool._threads ∧
      (j ∈ s.locked → step (Tid.client c) s1 = none ∧
        TPool.run (some j) p del s.pool s.locked = Res.blocks) ∧
      (j ∉ s.locked → ∃ s2 s3, step (Tid.client c) s1 = some s2 ∧
        step (Tid.client c) s2 = some s3 ∧
        s2.pool._idle_threads = idle ∧ s2.locked = j :: s.locked ∧
        s2.pool._threads = s.pool._threads ∧
        j ∈ s3.locked ∧ w ∉ s3.pool._idle_threads ∧ s3.pool._idle_threads = idle ∧
        s3.pool._threads[w]? = some { t with _job := some j, _data_ptr := p, _del_job := del } ∧
        (∀ k, k ≠ w → s3.pool._threads[k]? = s.pool._threads[k]?) ∧
        TPool.run (some j) p del s.pool s.locked = Res.ret (s3.pool, s3.locked)) := by
  have h0 := (inv_reachable hr).i0
  have hw : w < s.pool._threads.length := by
    rw [h0.len]; exact h0.bound w (head_mem_of_eq_cons hidle)
  have hnd := h0.nodup
  rw [hidle] at hnd
  have hwt : s.pool._threads[w]? = some s.pool._threads[w] := List.getElem?_eq_getElem hw
  have hget : s.pool.get_idle = Res.ret (w, { s.pool with _idle_threads := idle }) := by
    simp [TPool.get_idle, hidle]
  refine ⟨{ s with pool := { s.pool with _idle_threads := idle } }.setClient c
      { pc := .runGotIdle j p del w, todo := rest }, s.pool._threads[w], ?_, hwt, rfl, rfl, rfl,
      ?_, ?_⟩
  · simp [step, clientStep, hc, hpc, htodo, hget]
  · intro hj
    constructor
    · simp [step, clientStep, get_set_self hc, TJob.lock, hj]
    · simp [TPool.run, hget, TJob.lock, hj]
  · intro hj
    refine ⟨{ pool := { s.pool with _idle_threads := idle }
              locked := j :: s.locked
              clients := s.clients.set c { pc := .runLocked j p del w, todo := rest }
              trace := s.trace },
      { pool := { _max_parallel := s.pool._max_parallel
                  _threads := s.pool._threads.set w
                    (TPoolThr.run_job (some j) p del s.pool._threads[w])
                  _idle_threads := idle }
        locked := j :: s.locked
        clients := s.clients.set c { pc := .ready, todo := rest }
        trace := Event.handoff c w j p del :: s.trace }, ?_, ?_, rfl, rfl, rfl, ?_, ?_, rfl,
      ?_, ?_, ?_⟩
    · simp [step, clientStep, get_set_self hc, TJob.lock, hj]
    · simp [step, clientStep, get_set_self hc, TPool.onThread, hwt]
    · exact List.mem_cons_self _ _
    · exact (List.nodup_cons.1 hnd).1
    · simp [hw, TPoolThr.run_job]
    · intro k hk
      simp [List.getElem?_set, Ne.symm hk]
    · simp [TPool.run, hget, TJob.lock, hj, TPool.onThread, hwt]

/-- Witness of C4: the first call of `TPool::run` of the example, made when the pool
thread is idle and `jobA` is not locked. -/
theorem run_hands_job_to_head_of_idle_queue_witness :
    ∃ s1 t, step (Tid.client 0) demoIdle = some s1 ∧ demoIdle.pool._threads[0]? = some t ∧
      s1.pool._idle_threads = [] ∧ s1.locked = demoIdle.locked ∧
      s1.pool._threads = demoIdle.pool._threads ∧
      (jobA ∈ demoIdle.locked → step (Tid.client 0) s1 = none ∧
        TPool.run (some jobA) (some 5) false demoIdle.pool demoIdle.locked = Res.blocks) ∧
      (jobA ∉ demoIdle.locked → ∃ s2 s3, step (Tid.client 0) s1 = some s2 ∧
        step (Tid.client 0) s2 = some s3 ∧
        s2.pool._idle_threads = [] ∧ s2.locked = jobA :: demoIdle.locked ∧
        s2.pool._threads = demoIdle.pool._threads ∧
        jobA ∈ s3.locked ∧ 0 ∉ s3.pool._idle_threads ∧ s3.pool._idle_threads = [] ∧
        s3.pool._threads[0]? =
          some { t with _job := some jobA, _data_ptr := some 5, _del_job := false } ∧
        (∀ k, k ≠ 0 → s3.pool._threads[k]? = demoIdle.pool._threads[k]?) ∧
        TPool.run (some jobA) (some 5) false demoIdle.pool demoIdle.locked =
          Res.ret (s3.pool, s3.locked)) :=
  run_hands_job_to_head_of_idle_queue 1 demoProgs demoIdle ⟨demoStart, by rfl⟩ 0
    { pc := .ready, todo := [.run (some jobA) (some 5) false, .sync (some jobA),
        .run (some jobB) none true, .run (some jobC) none false, .sync_all] }
    jobA (some 5) false
    [.sync (some jobA), .run (some jobB) none true, .run (some jobC) none false, .sync_all]
    0 [] (by rfl) (by rfl) (by rfl) (by rfl)

/-- C5: for every pool and every set of locked jobs, `TPool::run` and the function
`run` of the namespace return at once for a `NULL` job and leave the pool (idle list,
slots of the threads) and the locks as they are; `run` does so whatever the global
`thread_pool` is. This also holds when the idle list is empty, where `get_idle` would
block. -/
theorem run_null_job_is_noop (self : TPool) (thread_pool : Option TPool) (locked : List TJob)
    (ptr : Option Nat) (del : Bool) :
    TPool.run none ptr del self locked = Res.ret (self, locked) ∧
    run none ptr del thread_pool locked = Res.ret (thread_pool, locked) ∧
    TPool.get_idle { self with _idle_threads := [] } = Res.blocks ∧
    TPool.run none ptr del { self with _idle_threads := [] } locked =
      Res.ret ({ self with _idle_threads := [] }, locked) ∧
    run none ptr del (some { self with _idle_threads := [] }) locked =
      Res.ret (some { self with _idle_threads := [] }, locked) :=
  ⟨rfl, rfl, rfl, rfl, rfl⟩

/-- C6: `TPool::sync` returns at once for a `NULL` job; for a job whose mutex is free
it locks the mutex, unlocks it and returns, and the pool and the set of locked jobs are
the same as before the call. -/
theorem sync_locks_then_unlocks (self : TPool) (locked : List TJob) (j : TJob)
    (hfree : j ∉ locked) :
    TPool.sync none self locked = Res.ret (self, locked) ∧
    j.lock locked = Res.ret (j :: locked) ∧ j.unlock (j :: locked) = locked ∧
    TPool.sync (some j) self locked = Res.ret (self, locked) := by
  have h1 : j.lock locked = Res.ret (j :: locked) := by simp [TJob.lock, hfree]
  have h2 : j.unlock (j :: locked) = locked := by
    simp only [TJob.unlock, List.filter_cons, bne_self_eq_false, Bool.false_eq_true, if_false]
    rw [List.filter_eq_self]
    intro k hk
    simp only [bne_iff_ne, ne_eq]
    rintro rfl
    exact hfree hk
  refine ⟨rfl, h1, h2, ?_⟩
  simp [TPool.sync, h1, h2]

/-- Witness of C6: `sync( jobA )` on the example pool while `jobB` is locked. -/
theorem sync_locks_then_unlocks_witness :
    TPool.sync none demoPool [jobB] = Res.ret (demoPool, [jobB]) ∧
    jobA.lock [jobB] = Res.ret [jobA, jobB] ∧ jobA.unlock [jobA, jobB] = [jobB] ∧
    TPool.sync (some jobA) demoPool [jobB] = Res.ret (demoPool, [jobB]) :=
  sync_locks_then_unlocks demoPool [jobB] jobA (by decide)

/-- C7: the idle list is a FIFO queue: `get_idle` on the list `w :: rest` returns `w` and
leaves `rest`; `append_idle` of a thread that is not in the list puts it at the back;
hence threads appended one after the other are returned by `get_idle` after the threads
that were in the list, in the order in which they were appended. -/
theorem idle_queue_is_fifo (self : TPool) (w : Nat) (rest ws : List Nat)
    (hidle : self._idle_threads = w :: rest) (hnd : ws.Nodup)
    (hnew : ∀ x ∈ ws, x ∉ self._idle_threads) :
    self.get_idle = Res.ret (w, { self with _idle_threads := rest }) ∧
    (∀ x, x ∉ self._idle_threads →
      (self.append_idle x)._idle_threads = self._idle_threads ++ [x]) ∧
    (ws.foldl (fun p x => p.append_idle x) self)._idle_threads = w :: rest ++ ws ∧
    (ws.foldl (fun p x => p.append_idle x) self).drain (rest.length + 1 + ws.length) =
      w :: rest ++ ws := by
  have hf := TPool.foldl_append_idle ws self hnd hnew
  refine ⟨by simp [TPool.get_idle, hidle], ?_, ?_, ?_⟩
  · intro x hx
    simp [TPool.append_idle, hx]
  · rw [hf, hidle]
  · rw [TPool.drain_eq, hf, hidle]
    rw [hf, hidle]
    simp
    omega

/-- Witness of C7: threads `1` and `4` appended to the idle list `[2, 0]`. -/
theorem idle_queue_is_fifo_witness :
    demoPool.get_idle = Res.ret (2, { demoPool with _idle_threads := [0] }) ∧
    (∀ x, x ∉ demoPool._idle_threads →
      (demoPool.append_idle x)._idle_threads = demoPool._idle_threads ++ [x]) ∧
    ([1, 4].foldl (fun p x => p.append_idle x) demoPool)._idle_threads = 2 :: [0] ++ [1, 4] ∧
    ([1, 4].foldl (fun p x => p.append_idle x) demoPool).drain ([0].length + 1 + [1, 4].length) =
      2 :: [0] ++ [1, 4] :=
  idle_queue_is_fifo demoPool 2 [0] [1, 4] (by rfl) (by decide) (by decide)

/-- C8: `append_idle` of a thread that is in the idle list already leaves the pool
as it is (same threads in the list, same order, same length); hence `append_idle`
applied twice gives the same pool as applied once. -/
theorem append_idle_idempotent (self : TPool) (w : Nat) (hmem : w ∈ self._idle_threads) :
    self.append_idle w = self ∧
    (self.append_idle w)._idle_threads.length = self._idle_threads.length ∧
    ∀ (pool : TPool) (x : Nat), (pool.append_idle x).append_idle x = pool.append_idle x := by
  have h1 : self.append_idle w = self := by simp [TPool.append_idle, hmem]
  refine ⟨h1, by rw [h1], ?_⟩
  intro pool x
  have hx : x ∈ (pool.append_idle x)._idle_threads :=
    (TPool.mem_append_idle x x pool).2 (Or.inr rfl)
  generalize pool.append_idle x = q at hx
  simp [TPool.append_idle, hx]

/-- Witness of C8: thread `0` is in the idle list of the example pool. -/
theorem append_idle_idempotent_witness :
    demoPool.append_idle 0 = demoPool ∧
    (demoPool.append_idle 0)._idle_threads.length = demoPool._idle_threads.length ∧
    ∀ (pool : TPool) (x : Nat), (pool.append_idle x).append_idle x = pool.append_idle x :=
  append_idle_idempotent demoPool 0 (by decide)

/-- C9: in every state reached from a new pool by any interleaving of the steps of the
pool threads (`TPoolThr::run` with its calls of `append_idle`) and of the calls of the
user threads (`TPool::run` with `get_idle`, `sync`, `sync_all`, and also `~TPool`), no
thread is in the idle list more than once; and a further call of `append_idle`, with any
thread, or of `get_idle` in such a state leaves an idle list without duplicates. -/
theorem idle_queue_nodup (max_p : Nat) (progs : List (List Call)) (s : State)
    (hr : Reachable (State.init max_p progs) s) :
    s.pool._idle_threads.Nodup ∧
    (∀ t, (s.pool.append_idle t)._idle_threads.Nodup) ∧
    (∀ w pool1, s.pool.get_idle = Res.ret (w, pool1) → pool1._idle_threads.Nodup) := by
  have hnd := (inv_reachable hr).i0.nodup
  refine ⟨hnd, fun t => TPool.append_idle_nodup t s.pool hnd, ?_⟩
  intro w pool1 hg
  obtain ⟨rest, hrest, rfl⟩ := TPool.get_idle_ret hg
  rw [hrest] at hnd
  exact (List.nodup_cons.1 hnd).2

/-- Witness of C9: the state of the example in which `sync_all` has returned. -/
theorem idle_queue_nodup_witness :
    demoDrained.pool._idle_threads.Nodup ∧
    (∀ t, (demoDrained.pool.append_idle t)._idle_threads.Nodup) ∧
    (∀ w pool1, demoDrained.pool.get_idle = Res.ret (w, pool1) → pool1._idle_threads.Nodup) :=
  idle_queue_nodup 1 demoProgs demoDrained ⟨demoSchedAll, by rfl⟩

/-- C10, as stated, fails: in the state of the example in which `TPool::run` has taken
the pool thread from the idle list and not yet handed it the job, no thread holds a job
and the idle list is not of size `capacity`. -/
theorem idle_queue_full_iff_fails :
    ¬ (∀ (max_p : Nat) (progs : List (List Call)) (s : State),
      Reachable (State.init max_p progs) s →
        s.pool._idle_threads.length ≤ max_p ∧
        (s.pool._idle_threads.length = max_p ↔
          ∀ (i : Nat) (t : TPoolThr), s.pool._threads[i]? = some t → t._job = none)) := by
  intro h
  have h1 := (h 1 demoProgs demoTaken ⟨demoStart ++ [Tid.client 0], by rfl⟩).2
  have h2 : ∀ (i : Nat) (t : TPoolThr), demoTaken.pool._threads[i]? = some t → t._job = none := by
    intro i t ht
    cases i with
    | zero =>
      have h3 : demoTaken.pool._threads[0]? =
          some (TPoolThr.mk 0 none none false false true WPc.waitWork false) := by rfl
      rw [h3] at ht
      rw [← Option.some.inj ht]
    | succ i =>
      have h3 : demoTaken.pool._threads[i + 1]? = none := by
        have h4 : demoTaken.pool._threads.length = 1 := by rfl
        rw [List.getElem?_eq_none_iff, h4]
        omega
      rw [h3] at ht
      cases ht
  have h3 := h1.2 h2
  revert h3
  decide

/-- C10, amended: in every reachable state the idle list holds at most `capacity`
threads, and when it holds exactly `capacity` threads no thread holds a job (the slot
of every thread is empty). -/
theorem idle_queue_size_bound (max_p : Nat) (progs : List (List Call)) (s : State)
    (hr : Reachable (State.init max_p progs) s) :
    0 ≤ s.pool._idle_threads.length ∧ s.pool._idle_threads.length ≤ max_p ∧
    (s.pool._idle_threads.length = max_p →
      ∀ (i : Nat) (t : TPoolThr), s.pool._threads[i]? = some t → t._job = none) := by
  have hI := inv_reachable hr
  have h0 := hI.i0
  obtain ⟨sched, hs⟩ := hr
  have hmax : s.pool._max_parallel = max_p := exec_max_parallel hs
  have hlen := h0.len
  have hbd := h0.bound
  rw [hmax] at hlen hbd
  refine ⟨Nat.zero_le _, length_le_of_nodup_bound h0.nodup hbd, ?_⟩
  intro hfull i t ht
  have hi : i < max_p := by rw [← hlen]; exact (List.getElem?_eq_some.1 ht).1
  exact hI.iG.g1 i t ht (mem_of_nodup_full h0.nodup hbd (le_of_eq hfull.symm) hi)

/-- Witness of C10, amended: the state of the example in which `sync_all` has
returned. -/
theorem idle_queue_size_bound_witness :
    0 ≤ demoDrained.pool._idle_threads.length ∧ demoDrained.pool._idle_threads.length ≤ 1 ∧
    (demoDrained.pool._idle_threads.length = 1 →
      ∀ (i : Nat) (t : TPoolThr), demoDrained.pool._threads[i]? = some t → t._job = none) :=
  idle_queue_size_bound 1 demoProgs demoDrained ⟨demoSchedAll, by rfl⟩

/-! ## Lemmas on the end flag, the rounds of a pool thread and the destructor -/

theorem TPool.onThread_get (i k : Nat) (f : TPoolThr → TPoolThr) (p : TPool) :
    (p.onThread i f)._threads[k]? =
      if k = i then (p._threads[k]?).map f else p._threads[k]? := by
  unfold TPool.onThread
  by_cases hk : k = i
  · subst hk
    cases h : p._threads[k]? with
    | none => simp [h]
    | some t => simp [h, get_set_self h]
  · cases h : p._threads[i]? with
    | none => simp [hk]
    | some t => simp [hk, List.getElem?_set_ne (Ne.symm hk)]

theorem wstep_thread {k : Nat} {s s' : State} {t : TPoolThr} (ht : s.pool._threads[k]? = some t)
    (hw : WStep k s t s') :
    ∃ t1, s'.pool._threads = s.pool._threads.set k t1 ∧ s'.pool._threads[k]? = some t1 ∧
      s'.clients = s.clients ∧ t1._end = t._end ∧ t1.deleted = t.deleted ∧
      (t1.pc = WPc.callAppend → t.pc = WPc.loopHead ∧ t._end = false) ∧
      (∀ i, i ∈ s'.pool._idle_threads → i ∈ s.pool._idle_threads ∨ (i = k ∧ t.pc = WPc.callAppend)) := by
  cases hw
  case append =>
    refine ⟨{ t with pc := WPc.waitWork }, ?_, ?_, rfl, rfl, rfl, ?_, ?_⟩
    · simp only [State.setThread, TPool.append_idle_threads]
    · simp only [State.setThread, TPool.append_idle_threads]
      exact get_set_self ht
    · intro h; cases h
    · intro i hi
      simp only [State.setThread, TPool.mem_append_idle] at hi
      rcases hi with hi | hi
      · exact Or.inl hi
      · exact Or.inr ⟨hi, ‹t.pc = WPc.callAppend›⟩
  case enter =>
    refine ⟨_, rfl, get_set_self ht, rfl, rfl, rfl, ?_, fun i hi => Or.inl hi⟩
    intro _; exact ⟨‹t.pc = WPc.loopHead›, ‹t._end = false›⟩
  all_goals
    refine ⟨_, rfl, get_set_self ht, rfl, rfl, rfl, ?_, fun i hi => Or.inl hi⟩
    intro h
    cases h

theorem cstep_thread {c : Nat} {s s' : State} {cl : Client} (hw : CStep c s cl s')
    (i : Nat) (th : TPoolThr) (hth : s.pool._threads[i]? = some th) :
    ∃ th1, s'.pool._threads[i]? = some th1 ∧ th1.pc = th.pc ∧
      (th._end = true → th1._end = true) ∧
      (th._end = false → th1._end = true → cl.pc = CPc.quitting i) ∧
      (∀ k, k ∈ s'.pool._idle_threads → k ∈ s.pool._idle_threads) := by
  cases hw
  case runGet =>
    refine ⟨th, hth, rfl, id, ?_, ?_⟩
    · intro h1 h2; rw [h1] at h2; cases h2
    · intro k hk
      exact tail_mem_of_eq_cons ‹s.pool._idle_threads = _› hk
  case runHand =>
    rename_i j p del thr hpc
    by_cases hi : i = thr
    · subst hi
      refine ⟨TPoolThr.run_job (some j) p del th, ?_, rfl, id, ?_, ?_⟩
      · simp [TPool.onThread_get, hth]
      · intro h1 h2
        change th._end = true at h2
        rw [h1] at h2; cases h2
      · intro k hk
        simpa [TPool.onThread_idle] using hk
    · refine ⟨th, ?_, rfl, id, ?_, ?_⟩
      · simp [TPool.onThread_get, hi, hth]
      · intro h1 h2; rw [h1] at h2; cases h2
      · intro k hk
        simpa [TPool.onThread_idle] using hk
  case destroyQuit =>
    rename_i q hpc hq
    by_cases hi : i = q
    · subst hi
      refine ⟨TPoolThr.quit th, ?_, rfl, fun _ => rfl, ?_, ?_⟩
      · simp [TPool.onThread_get, hth]
      · intro _ _; exact hpc
      · intro k hk
        simpa [TPool.onThread_idle] using hk
    · refine ⟨th, ?_, rfl, id, ?_, ?_⟩
      · simp [TPool.onThread_get, hi, hth]
      · intro h1 h2; rw [h1] at h2; cases h2
      · intro k hk
        simpa [TPool.onThread_idle] using hk
  case destroyDel =>
    rename_i q t hpc hq ht hm
    by_cases hi : i = q
    · subst hi
      rw [ht] at hth
      cases hth
      refine ⟨_, get_set_self ht, rfl, id, ?_, fun k hk => hk⟩
      intro h1 h2
      change th._end = true at h2
      rw [h1] at h2; cases h2
    · refine ⟨th, ?_, rfl, id, ?_, fun k hk => hk⟩
      · simp only [State.setThread, State.setClient]
        rw [List.getElem?_set_ne (Ne.symm hi)]
        exact hth
      · intro h1 h2; rw [h1] at h2; cases h2
  all_goals
    refine ⟨th, hth, rfl, id, ?_, fun k hk => hk⟩
    intro h1 h2
    rw [h1] at h2
    cases h2

/-- What a step does to the `_end` of a pool thread and to its place in the idle list. -/
theorem end_step {tid : Tid} {s s' : State} {i : Nat} {th : TPoolThr}
    (hs : step tid s = some s') (hth : s.pool._threads[i]? = some th) :
    ∃ th1, s'.pool._threads[i]? = some th1 ∧
      (th._end = true → th1._end = true) ∧
      (th._end = false → th1._end = true →
        ∃ c cl, tid = Tid.client c ∧ s.clients[c]? = some cl ∧ cl.pc = CPc.quitting i) ∧
      (th._end = true → th.pc ≠ WPc.callAppend →
        th1.pc ≠ WPc.callAppend ∧ (i ∈ s'.pool._idle_threads → i ∈ s.pool._idle_threads)) := by
  cases tid with
  | worker k =>
    obtain ⟨t, ht, _, hw⟩ := workerStep_sound hs
    obtain ⟨t1, hset, hget, _, hend, _, hca, hidle⟩ := wstep_thread ht hw
    by_cases hi : i = k
    · subst hi
      rw [ht] at hth
      cases hth
      refine ⟨t1, hget, fun h => hend.trans h, ?_, ?_⟩
      · intro h1 h2
        rw [hend, h1] at h2
        cases h2
      · intro h1 h2
        constructor
        · intro h3
          have := (hca h3).2
          rw [h1] at this
          cases this
        · intro h3
          rcases hidle i h3 with h4 | ⟨_, h4⟩
          · exact h4
          · exact absurd h4 h2
    · refine ⟨th, ?_, id, ?_, ?_⟩
      · rw [hset, List.getElem?_set_ne (Ne.symm hi)]
        exact hth
      · intro h1 h2
        rw [h1] at h2
        cases h2
      · intro _ h2
        refine ⟨h2, ?_⟩
        intro h3
        rcases hidle i h3 with h4 | ⟨h4, _⟩
        · exact h4
        · exact absurd h4 hi
  | client c =>
    obtain ⟨cl, hcl, hw⟩ := clientStep_sound hs
    obtain ⟨th1, h1, hpc, hmono, hquit, hidle⟩ := cstep_thread hw i th hth
    refine ⟨th1, h1, hmono, ?_, ?_⟩
    · intro h2 h3
      exact ⟨c, cl, rfl, hcl, hquit h2 h3⟩
    · intro _ h3
      exact ⟨by rw [hpc]; exact h3, hidle i⟩

theorem end_exec {sched : List Tid} {s s1 : State} {i : Nat} {t : TPoolThr}
    (hexec : exec sched s = some s1) (ht : s.pool._threads[i]? = some t) (hend : t._end = true) :
    ∃ t1, s1.pool._threads[i]? = some t1 ∧ t1._end = true ∧
      (t.pc ≠ WPc.callAppend → t1.pc ≠ WPc.callAppend ∧
        (i ∈ s1.pool._idle_threads → i ∈ s.pool._idle_threads)) := by
  induction sched generalizing s t with
  | nil =>
    simp [exec] at hexec
    subst hexec
    exact ⟨t, ht, hend, fun h => ⟨h, id⟩⟩
  | cons tid sched ih =>
    simp only [exec] at hexec
    cases hst : step tid s with
    | none => rw [hst] at hexec; cases hexec
    | some s2 =>
      rw [hst] at hexec
      obtain ⟨t2, ht2, hmono, _, hrest⟩ := end_step hst ht
      obtain ⟨t1, ht1, hend1, hrest1⟩ := ih hexec ht2 (hmono hend)
      refine ⟨t1, ht1, hend1, ?_⟩
      intro hpc
      obtain ⟨hpc2, hidle2⟩ := hrest hend hpc
      obtain ⟨hpc1, hidle1⟩ := hrest1 hpc2
      exact ⟨hpc1, fun h => hidle2 (hidle1 h)⟩

/-- C12: the code does not do what the claim says. In the sequence `init( 1 )`,
`done()`, `init( 2 )` the function `done` destroys the first pool and leaves its
address in `thread_pool`; the second `init` finds `thread_pool != NULL` and destroys
the same pool again. -/
theorem init_done_init_deletes_twice :
    (done (init 1 Process.start)).thread_pool = some 0 ∧
    ¬ (done (init 1 Process.start)).live 0 ∧
    (init 2 (done (init 1 Process.start))).deletes = [0, 0] ∧
    (init 2 (done (init 1 Process.start))).deletes.count 0 = 2 ∧
    (done (done (init 1 Process.start))).deletes.count 0 = 2 := by
  refine ⟨rfl, ?_, rfl, rfl, rfl⟩
  intro h
  exact h.2 (by decide)

/-- C14: `_end` of a pool thread is `false` when the thread is constructed, and in
the new pool; `run_job`, `append_idle` and `get_idle` do not write it, `quit` sets it;
a step of the program that changes it is the `quit` of line 210 made by the destructor.
Once it is `true` in a state `s` it is `true` in every state reached from `s`; and if the
thread is then not at line 87 (between the test of line 81, made with `_end` still
`false`, and its `append_idle`) the thread never reaches line 87 again and is never
again put into the idle list: a thread at line 81 leaves the loop. -/
theorem end_flag_is_monotonic (sched : List Tid) (s s1 : State) (i : Nat) (t : TPoolThr)
    (hexec : exec sched s = some s1) (ht : s.pool._threads[i]? = some t)
    (hend : t._end = true) :
    (∀ n, (TPoolThr.new n)._end = false) ∧
    (∀ (max_p : Nat) (progs : List (List Call)) (k : Nat) (tk : TPoolThr),
      (State.init max_p progs).pool._threads[k]? = some tk → tk._end = false) ∧
    (∀ (j : Option TJob) (p : Option Nat) (del : Bool) (x : TPoolThr),
      (x.run_job j p del)._end = x._end) ∧
    (∀ x : TPoolThr, x.quit._end = true) ∧
    (∀ (k : Nat) (pool : TPool), (pool.append_idle k)._threads = pool._threads) ∧
    (∀ (pool pool1 : TPool) (w : Nat), pool.get_idle = Res.ret (w, pool1) →
      pool1._threads = pool._threads) ∧
    (∀ (tid : Tid) (s2 s3 : State) (k : Nat) (tk tk3 : TPoolThr), step tid s2 = some s3 →
      s2.pool._threads[k]? = some tk → s3.pool._threads[k]? = some tk3 →
      tk._end = false → tk3._end = true →
      ∃ c cl, tid = Tid.client c ∧ s2.clients[c]? = some cl ∧ cl.pc = CPc.quitting k) ∧
    (∃ t1, s1.pool._threads[i]? = some t1 ∧ t1._end = true ∧
      (t.pc ≠ WPc.callAppend → t1.pc ≠ WPc.callAppend ∧
        (i ∈ s1.pool._idle_threads → i ∈ s.pool._idle_threads))) ∧
    (t.pc = WPc.loopHead → t.deleted = false →
      step (Tid.worker i) s =
        some (s.setThread i { t with _del_mutex := false, pc := WPc.finished })) := by
  refine ⟨fun _ => rfl, ?_, fun _ _ _ _ => rfl, fun _ => rfl, TPool.append_idle_threads, ?_, ?_,
    end_exec hexec ht hend, ?_⟩
  · intro max_p progs k tk h
    rw [init_thread h]
    rfl
  · intro pool pool1 w h
    obtain ⟨rest, _, rfl⟩ := TPool.get_idle_ret h
    rfl
  · intro tid s2 s3 k tk tk3 hs h2 h3 he he3
    obtain ⟨th1, h4, _, hq, _⟩ := end_step hs h2
    rw [h3] at h4
    cases h4
    exact hq he he3
  · intro hpc hd
    simp [step, workerStep, ht, hpc, hd, hend]

/-- Witness of C14: in the second example, after the `quit` of the destructor the pool
thread wakes, leaves the loop and stays out of line 87. -/
theorem end_flag_is_monotonic_witness :
    ∃ t1, (exec [Tid.worker 0, Tid.worker 0, Tid.worker 0] demoQuit).getD
        demoQuit |>.pool._threads[0]? = some t1 ∧ t1._end = true ∧ t1.pc ≠ WPc.callAppend :=
  let h := (end_flag_is_monotonic [Tid.worker 0, Tid.worker 0, Tid.worker 0] demoQuit
    ((exec [Tid.worker 0, Tid.worker 0, Tid.worker 0] demoQuit).getD demoQuit) 0
    (TPoolThr.mk 0 none none true true true WPc.waitWork false) (by rfl) (by rfl) (by rfl)).2.2.2.2.2.2.2.1
  h.imp (fun _ h1 => ⟨h1.1, h1.2.1, (h1.2.2 (by decide)).1⟩)

/-- C15: in every reachable state a pool thread that is in the idle list has an empty
slot, and so has the thread that `get_idle` returned to a `TPool::run` that has not
yet called `run_job`: the `run_job` of line 254 overwrites an empty slot. -/
theorem idle_worker_has_empty_slot (max_p : Nat) (progs : List (List Call)) (s : State)
    (hr : Reachable (State.init max_p progs) s) :
    (∀ (i : Nat) (t : TPoolThr), s.pool._threads[i]? = some t → i ∈ s.pool._idle_threads →
      t._job = none) ∧
    (∀ (w : Nat) (pool1 : TPool) (t : TPoolThr), s.pool.get_idle = Res.ret (w, pool1) →
      s.pool._threads[w]? = some t → t._job = none) ∧
    (∀ (c : Nat) (cl : Client) (j : TJob) (p : Option Nat) (del : Bool) (thr : Nat)
      (t : TPoolThr), s.clients[c]? = some cl →
      (cl.pc = CPc.runGotIdle j p del thr ∨ cl.pc = CPc.runLocked j p del thr) →
      s.pool._threads[thr]? = some t → t._job = none) := by
  have hG := (inv_reachable hr).iG
  refine ⟨hG.g1, ?_, ?_⟩
  · intro w pool1 t hg ht
    obtain ⟨rest, hrest, _⟩ := TPool.get_idle_ret hg
    exact hG.g1 w t ht (head_mem_of_eq_cons hrest)
  · intro c cl j p del thr t hc hpc ht
    refine (hG.g2t c cl thr t hc ?_ ht).1
    rcases hpc with hpc | hpc <;> simp [hpc, CPc.thr]

/-- Witness of C15: the state of the example in which `TPool::run` holds the pool
thread and has not yet handed it `jobA`. -/
theorem idle_worker_has_empty_slot_witness :
    (∀ (i : Nat) (t : TPoolThr), demoTaken.pool._threads[i]? = some t →
      i ∈ demoTaken.pool._idle_threads → t._job = none) ∧
    (∀ (w : Nat) (pool1 : TPool) (t : TPoolThr), demoTaken.pool.get_idle = Res.ret (w, pool1) →
      demoTaken.pool._threads[w]? = some t → t._job = none) ∧
    (∀ (c : Nat) (cl : Client) (j : TJob) (p : Option Nat) (del : Bool) (thr : Nat)
      (t : TPoolThr), demoTaken.clients[c]? = some cl →
      (cl.pc = CPc.runGotIdle j p del thr ∨ cl.pc = CPc.runLocked j p del thr) →
      demoTaken.pool._threads[thr]? = some t → t._job = none) :=
  idle_worker_has_empty_slot 1 demoProgs demoTaken ⟨demoStart ++ [Tid.client 0], by rfl⟩

/-- C16: `TPool::run` takes the head of the idle list whatever the job is: for two
jobs whose mutex is free (in particular two jobs that differ in the job number only),
either the idle list is empty and both calls block, or both calls return, hand their
job to the same thread `w`, the head of the idle list, and leave the same idle list; and
the same thread is taken and the same idle list is left when the array of threads is
replaced by any other (other thread numbers). -/
theorem dispatch_ignores_affinity (self : TPool) (locked : List TJob) (j1 j2 : TJob)
    (p : Option Nat) (del : Bool) (threads1 : List TPoolThr)
    (h1 : j1 ∉ locked) (h2 : j2 ∉ locked) :
    ((self._idle_threads = [] ∧
        TPool.run (some j1) p del self locked = Res.blocks ∧
        TPool.run (some j2) p del self locked = Res.blocks ∧
        TPool.run (some j1) p del { self with _threads := threads1 } locked = Res.blocks) ∨
      (∃ w rest, self._idle_threads = w :: rest ∧
        TPool.run (some j1) p del self locked =
          Res.ret (TPool.onThread w (TPoolThr.run_job (some j1) p del)
            { self with _idle_threads := rest }, j1 :: locked) ∧
        TPool.run (some j2) p del self locked =
          Res.ret (TPool.onThread w (TPoolThr.run_job (some j2) p del)
            { self with _idle_threads := rest }, j2 :: locked) ∧
        TPool.run (some j1) p del { self with _threads := threads1 } locked =
          Res.ret (TPool.onThread w (TPoolThr.run_job (some j1) p del)
            { self with _threads := threads1, _idle_threads := rest }, j1 :: locked) ∧
        (TPool.onThread w (TPoolThr.run_job (some j1) p del)
          { self with _idle_threads := rest })._idle_threads = rest ∧
        (TPool.onThread w (TPoolThr.run_job (some j2) p del)
          { self with _idle_threads := rest })._idle_threads = rest ∧
        (TPool.onThread w (TPoolThr.run_job (some j1) p del)
          { self with _threads := threads1, _idle_threads := rest })._idle_threads = rest ∧
        TPool.get_idle { self with _threads := threads1 } =
          Res.ret (w, { self with _threads := threads1, _idle_threads := rest }))) := by
  cases hidle : self._idle_threads with
  | nil =>
    left
    refine ⟨rfl, ?_, ?_, ?_⟩ <;> simp [TPool.run, TPool.get_idle, hidle]
  | cons w rest =>
    right
    refine ⟨w, rest, rfl, ?_, ?_, ?_, ?_, ?_, ?_, ?_⟩
    · simp [TPool.run, TPool.get_idle, hidle, TJob.lock, h1]
    · simp [TPool.run, TPool.get_idle, hidle, TJob.lock, h2]
    · simp [TPool.run, TPool.get_idle, hidle, TJob.lock, h1]
    · rw [TPool.onThread_idle]
    · rw [TPool.onThread_idle]
    · rw [TPool.onThread_idle]
    · simp [TPool.get_idle, hidle]

/-- Witness of C16: on the pool of the examples, whose idle list is `[2, 0]`, `jobA`
(job number `-1`) and the job at the same place with job number `7` are both handed to
thread `2`, and the idle list left is `[0]`. -/
theorem dispatch_ignores_affinity_witness :
    jobA ∉ ([] : List TJob) ∧ ({ jobA with _job_no := 7 } : TJob) ∉ ([] : List TJob) ∧
    TPool.run (some jobA) none false demoPool [] =
      Res.ret (TPool.onThread 2 (TPoolThr.run_job (some jobA) none false)
        { demoPool with _idle_threads := [0] }, [jobA]) ∧
    TPool.run (some { jobA with _job_no := 7 }) none false demoPool [] =
      Res.ret (TPool.onThread 2 (TPoolThr.run_job (some { jobA with _job_no := 7 }) none false)
        { demoPool with _idle_threads := [0] }, [{ jobA with _job_no := 7 }]) :=
  ⟨by simp, by simp,
    (dispatch_ignores_affinity demoPool [] jobA { jobA with _job_no := 7 } none false []
      (by simp) (by simp)).elim (fun h => absurd h.1 (by decide))
      (fun h => by
        obtain ⟨w, rest, h0, h1, h2, _⟩ := h
        have h3 : w = 2 ∧ rest = [0] := by
          have h4 : ([2, 0] : List Nat) = w :: rest := h0
          simp at h4
          exact ⟨h4.1.symm, h4.2.symm⟩
        obtain ⟨rfl, rfl⟩ := h3
        exact h1),
    by rfl⟩

/-- C17: `TJob::on_proc( p )` is true if and only if `p` is `-1` (`NO_PROC`), the job
number is `-1`, or `p` is the job number; `TThread::on_proc` decides the same on the
thread number. So `NO_PROC` on either side matches, and two numbers that are both not
`NO_PROC` match exactly when they are equal. -/
theorem on_proc_iff (j : TJob) (t : TPoolThr) (p : Int) :
    NO_PROC = -1 ∧
    (j.on_proc p = true ↔ (p = -1 ∨ j.job_no = -1 ∨ p = j.job_no)) ∧
    (TThread.on_proc t p = true ↔ (p = -1 ∨ t._thread_no = -1 ∨ p = t._thread_no)) ∧
    j.on_proc NO_PROC = true ∧ TThread.on_proc t NO_PROC = true ∧
    TJob.on_proc { j with _job_no := NO_PROC } p = true ∧
    TThread.on_proc { t with _thread_no := NO_PROC } p = true ∧
    ((p ≠ NO_PROC ∧ j.job_no ≠ NO_PROC ∧ j.on_proc p = true) ↔
      (p ≠ NO_PROC ∧ j.job_no ≠ NO_PROC ∧ p = j.job_no)) ∧
    ((p ≠ NO_PROC ∧ t._thread_no ≠ NO_PROC ∧ TThread.on_proc t p = true) ↔
      (p ≠ NO_PROC ∧ t._thread_no ≠ NO_PROC ∧ p = t._thread_no)) := by
  have hj : j.on_proc p = true ↔ (p = -1 ∨ j.job_no = -1 ∨ p = j.job_no) := by
    simp [TJob.on_proc, TJob.job_no, NO_PROC, or_assoc]
  have ht : TThread.on_proc t p = true ↔ (p = -1 ∨ t._thread_no = -1 ∨ p = t._thread_no) := by
    simp [TThread.on_proc, or_assoc]
  refine ⟨rfl, hj, ht, ?_, ?_, ?_, ?_, ?_, ?_⟩
  · simp [TJob.on_proc]
  · simp [TThread.on_proc, NO_PROC]
  · simp [TJob.on_proc]
  · simp [TThread.on_proc, NO_PROC]
  · rw [hj]
    simp only [NO_PROC]
    constructor
    · rintro ⟨a, b, c | c | c⟩
      · exact absurd c a
      · exact absurd c b
      · exact ⟨a, b, c⟩
    · rintro ⟨a, b, c⟩
      exact ⟨a, b, Or.inr (Or.inr c)⟩
  · rw [ht]
    simp only [NO_PROC]
    constructor
    · rintro ⟨a, b, c | c | c⟩
      · exact absurd c a
      · exact absurd c b
      · exact ⟨a, b, c⟩
    · rintro ⟨a, b, c⟩
      exact ⟨a, b, Or.inr (Or.inr c)⟩

end ThreadPool
